import Mathlib

set_option maxRecDepth 10000

/-!
Shallow embedding of the algorithmic core of the step189-2020 push
visualization: the timeline row packer (`timeline.component.ts`) and the
empirical-CDF utilities (`cdf.utils.ts`).

Modelling conventions:
* JavaScript `number` (IEEE float64) is embedded as `ℚ`; all operations the
  embedded code performs on numbers (comparison, addition, subtraction,
  multiplication, division by nonzero values) agree with the float program
  up to rounding, and every concrete theorem below evaluates the embedded
  definitions on small values where the behaviours coincide.  `Math.sqrt`
  is the one float operation with no exact rational counterpart, so the
  function using it takes the square-root operation as a parameter.
* Protocol-buffer fields are `Option`-valued; JavaScript truthiness of a
  field value (`undefined`/`null`/`0`/`''` are falsy) is modelled by the
  `truthy*` helpers.
* A JavaScript crash (property access on `undefined`, e.g. indexing an
  array out of range and dereferrencing the result) is modelled by `none`:
  fallible functions return `Option`.
* `Array.prototype.sort` with an ascending numeric comparator is a stable
  ascending sort; it is modelled with `List.insertionSort`, which sorts
  ascending and is stable.  No theorem below depends on the tie order.
-/

/-- One entry of the protobuf `stateInfo` list: `(stage, state, startTimeNsec)`. -/
structure StateInfo where
  stage : Option String
  state : Option Int
  startTimeNsec : Option Int
deriving DecidableEq, Repr

/-- A decoded push record, with the fields the embedded code reads. -/
structure PushInfo where
  pushHandle : Option String
  stateInfo : Option (List StateInfo)
deriving DecidableEq, Repr

/-- JavaScript truthiness of an optional numeric field (`0` is falsy). -/
def truthyInt : Option Int → Bool
  | none => false
  | some t => t != 0

/-- JavaScript truthiness of an optional string field (`''` is falsy). -/
def truthyStr : Option String → Bool
  | none => false
  | some s => s != ""

namespace Cdf

/-- `Item` of `cdf.utils.ts`: one sample of the empirical distribution. -/
structure Item where
  duration : ℚ
  probability : ℚ
deriving DecidableEq, Repr

instance : Inhabited Item := ⟨⟨0, 0⟩⟩

/-- `NANO_TO_MINUTES = (10 ** 9) * 60`. -/
def NANO_TO_MINUTES : ℚ := (10 ^ 9) * 60

/-- `COMPLETED_STATE_TAG = 5`. -/
def COMPLETED_STATE_TAG : Int := 5

/-- The body of the `forEach` of `populateData`: the duration contributed by
one push.  `none` models a thrown `TypeError` (empty `stateInfo` array, where
`states[states.length - 1]` is `undefined`); `some none` models an early
`return` (the push is skipped); `some (some d)` contributes duration `d`. -/
def pushDuration (p : PushInfo) : Option (Option ℚ) :=
  match p.stateInfo with
  | none => some none
  | some states =>
    match states.getLast? with
    | none => none
    | some lastState =>
      if !truthyInt lastState.startTimeNsec then some none
      else if !truthyInt lastState.state then some none
      else if lastState.state.getD 0 = COMPLETED_STATE_TAG then
        match states.find? (fun st => truthyStr st.stage && truthyInt st.startTimeNsec) with
        | none => some none
        | some firstState =>
          let firstStateStart : Int := firstState.startTimeNsec.getD 0
          if firstStateStart = -1 then some none
          else
            some (some ((((lastState.startTimeNsec.getD 0 - firstStateStart : Int) : ℚ))
              / NANO_TO_MINUTES))
      else some none

/-- The durations accumulated by the `forEach` of `populateData`, in input
order; `none` if any iteration throws. -/
def durationsOf : List PushInfo → Option (List ℚ)
  | [] => some []
  | p :: ps =>
    match pushDuration p with
    | none => none
    | some none => durationsOf ps
    | some (some d) => (durationsOf ps).map (d :: ·)

/-- The table-building loop of `populateData`: the `i`-th entry of the sorted
duration array is paired with probability `(i + 1) / durationLength`. -/
def buildTable (sortedArray : List ℚ) : List Item :=
  (List.range sortedArray.length).map fun i =>
    { duration := sortedArray.getD i 0
      probability := ((i : ℚ) + 1) / (sortedArray.length : ℚ) }

/-- `populateData` of `cdf.utils.ts`: extract one duration per completed push,
sort ascending, and assign `probability = (i + 1) / n` to the `i`-th sorted
duration. -/
def populateData (pushInfos : List PushInfo) : Option (List Item) :=
  match durationsOf pushInfos with
  | none => none
  | some durations => some (buildTable (List.insertionSort (· ≤ ·) durations))

/-- The loop of `d3.bisectLeft` / `d3.bisectRight` (binary search for the
leftmost / rightmost insertion point): `while (lo < hi) { mid = (lo+hi)>>>1;
if (keepLeft a[mid]) lo = mid+1 else hi = mid }`.  `fuel ≥ hi - lo` makes the
recursion structural; the loop shrinks `hi - lo` every iteration. -/
def bisectLoop (keepLeft : ℚ → Bool) (a : List ℚ) : Nat → Nat → Nat → Nat
  | 0, lo, _ => lo
  | fuel + 1, lo, hi =>
    if lo < hi then
      let mid := (lo + hi) / 2
      if keepLeft (a.getD mid 0) then bisectLoop keepLeft a fuel (mid + 1) hi
      else bisectLoop keepLeft a fuel lo mid
    else lo

/-- `d3.bisectLeft(a, x)`: leftmost insertion point of `x` in ascending `a`. -/
def bisectLeft (a : List ℚ) (x : ℚ) : Nat :=
  bisectLoop (fun v => v < x) a a.length 0 a.length

/-- `d3.bisectRight(a, x)`: rightmost insertion point of `x` in ascending `a`. -/
def bisectRight (a : List ℚ) (x : ℚ) : Nat :=
  bisectLoop (fun v => v ≤ x) a a.length 0 a.length

/-- `getProbabilityForDuration` of `cdf.utils.ts`: binary-search the duration
column, then read the probability one position before the insertion point.
When the insertion point is `0` the code dereferences `data[-1]`, i.e.
`undefined`, and throws — modelled by `none`. -/
def getProbabilityForDuration (data : List Item) (duration : ℚ) : Option ℚ :=
  let allDurations := data.map (·.duration)
  let index := bisectLeft allDurations duration
  if index = 0 then none
  else (data.get? (index - 1)).map (·.probability)

/-- `getDurationforProbability` of `cdf.utils.ts`: locate the entries directly
below (`left`) and above (`right`) the requested probability and interpolate
linearly.  Out-of-range accesses (`left` when the insertion point is `0`,
`right` when it is past the end) throw — modelled by `none`. -/
def getDurationforProbability (data : List Item) (probability : ℚ) : Option ℚ :=
  let allProbabilities := data.map (·.probability)
  let leftIndex := bisectLeft allProbabilities probability
  if leftIndex = 0 then none
  else
    match data.get? (leftIndex - 1), data.get? (bisectRight allProbabilities probability) with
    | some left, some right =>
      some ((probability - left.probability) * (right.duration - left.duration)
        / (right.probability - left.probability) + left.duration)
    | _, _ => none

/-- `generateQuantiles` of `cdf.utils.ts`.  The source recurses without a
structural measure, so the embedding takes explicit `fuel`; `none` covers both
fuel exhaustion and a thrown lookup.  `percentileLines` always has exactly
three entries at every call site, so it is modelled as a triple. -/
def generateQuantiles (fuel : Nat) (data : List Item) (percentileLines : ℚ × ℚ × ℚ)
    (xScale : ℚ → ℚ) : Option (List Item) :=
  match fuel with
  | 0 => none
  | fuel + 1 =>
    let (p0, p1, p2) := percentileLines
    if p0 < 1/100 ∨ p2 > 99/100 then
      (getDurationforProbability data p1).map fun d => [⟨d, p1⟩]
    else
      match getDurationforProbability data p0, getDurationforProbability data p1,
          getDurationforProbability data p2 with
      | some d0, some d1, some d2 =>
        if xScale (d1 - d0) < 15 ∨ xScale (d2 - d1) < 15 then
          generateQuantiles fuel data (p0 - 1/100, p1, p2 + 1/100) xScale
        else some [⟨d0, p0⟩, ⟨d1, p1⟩, ⟨d2, p2⟩]
      | _, _, _ => none

/-- The spacing test of `generateQuantiles` at widening step `k`: the
percentile triple at step `k` is `(1/10 - k/100, 1/2, 9/10 + k/100)`, and the
test compares the pixel-scaled gaps between the interpolated durations with
the 15-pixel threshold (the `getD 0` defaults are never reached when the
lookups succeed). -/
def spacingFailAt (data : List Item) (xScale : ℚ → ℚ) (k : Nat) : Prop :=
  xScale ((getDurationforProbability data (1/2)).getD 0 -
      (getDurationforProbability data (1/10 - (k : ℚ)/100)).getD 0) < 15 ∨
  xScale ((getDurationforProbability data (9/10 + (k : ℚ)/100)).getD 0 -
      (getDurationforProbability data (1/2)).getD 0) < 15

/-- One iteration of the inner loop of `generateYPosition`: scan an already
placed point `q`; skip it if its x-coordinate is falsy (`!xi`), bump the
candidate height `y` when the circles would come closer than `radius`. -/
def dodgeStep (sqrtFn : ℚ → ℚ) (radius2 : ℚ) (x : ℚ) (y : ℚ) (q : ℚ × ℚ) : ℚ :=
  if q.1 = 0 then y
  else
    let x2 := (q.1 - x) ^ 2
    let y2 := (q.2 - y) ^ 2
    if radius2 > x2 + y2 then q.2 + sqrtFn (radius2 - x2) + 1/1000000
    else y

/-- One iteration of the outer loop of `generateYPosition`: scan all already
placed dots with the candidate height starting at `0`, then push the new
`(x, y)` pair. -/
def placeDot (sqrtFn : ℚ → ℚ) (radius2 : ℚ) (xScale : ℚ → ℚ)
    (coords : List (ℚ × ℚ)) (val : ℚ) : List (ℚ × ℚ) :=
  let x := xScale val
  let y := coords.foldl (dodgeStep sqrtFn radius2 x) 0
  coords ++ [(x, y)]

/-- `generateYPosition` of `cdf.utils.ts`: place one dot per duration, pushing
its vertical offset past every previously placed dot it collides with.
`sqrtFn` stands for `Math.sqrt`; every theorem below only evaluates it on
perfect squares, where the float and the rational value agree. -/
def generateYPosition (sqrtFn : ℚ → ℚ) (radius : ℚ) (xScale : ℚ → ℚ)
    (xVals : List ℚ) : List ℚ :=
  (xVals.foldl (placeDot sqrtFn (radius ^ 2) xScale) []).map (·.2)

/-- A completed push record whose first non-empty stage starts at `t0`
nanoseconds and whose final stage (state `5`, completed) starts at `t1`
nanoseconds: it contributes the duration `(t1 - t0) / NANO_TO_MINUTES`. -/
def completedPush (t0 t1 : Int) : PushInfo :=
  { pushHandle := some "p"
    stateInfo := some
      [⟨some "stage", some 1, some t0⟩, ⟨some "stage", some 5, some t1⟩] }

/-- The five completed pushes of the worked example of the spec: durations
1, 2, 3, 4 and 10 minutes (`NANO_TO_MINUTES = 6 * 10 ^ 10`). -/
def examplePushes : List PushInfo :=
  [completedPush 60000000000 120000000000,
   completedPush 60000000000 180000000000,
   completedPush 60000000000 240000000000,
   completedPush 60000000000 300000000000,
   completedPush 60000000000 660000000000]

/-- The table `populateData` builds from `examplePushes`: probabilities
20/40/60/80/100 percent, i.e. 1/5 … 1 at the fraction scale of the code. -/
def exampleTable : List Item :=
  [⟨1, 1/5⟩, ⟨2, 2/5⟩, ⟨3, 3/5⟩, ⟨4, 4/5⟩, ⟨10, 1⟩]

end Cdf

namespace Timeline

/-- `Item` of `timeline.component.ts`: one interval on the timeline. -/
structure Item where
  pushID : String
  state : Int
  startTime : ℚ
  endTime : ℚ
  row : Nat
deriving DecidableEq, Repr

instance : Inhabited Item := ⟨⟨"", 0, 0, 0, 0⟩⟩

/-- `NSEC_PER_MSEC = 10 ** 6`. -/
def NSEC_PER_MSEC : ℚ := 10 ^ 6

/-- Start time of the interval at index `i` of the sorted array. -/
def startOf (all : List Item) (i : Nat) : ℚ := (all.getD i default).startTime

/-- End time of the interval at index `i` of the sorted array. -/
def endOf (all : List Item) (i : Nat) : ℚ := (all.getD i default).endTime

/-- Push id of the interval at index `i` of the sorted array. -/
def idOf (all : List Item) (i : Nat) : String := (all.getD i default).pushID

/-- The comparator of `data.sort((a, b) => a.startTime - b.startTime)`. -/
def byStart : Item → Item → Prop := fun a b => a.startTime ≤ b.startTime

instance : DecidableRel byStart :=
  fun a b => inferInstanceAs (Decidable (a.startTime ≤ b.startTime))

instance : IsTotal Item byStart := ⟨fun a b => le_total a.startTime b.startTime⟩

instance : IsTrans Item byStart := ⟨fun _ _ _ => le_trans⟩

/-- Mutable state of one linear pass of `divideIntoRows` over the current
interval list.  The intervals of the sorted array are identified by their
index, so that the in-place mutation `intervalInData.row = rowIndex` becomes
an update of the parallel `rows` list.  `writes` instruments the pass: it
records, in order, each index whose `row` field the pass assigns. -/
structure PassState where
  rows : List Nat
  writes : List Nat
  lastEnd : ℚ
  deferred : List Nat
deriving DecidableEq, Repr

/-- One iteration of the `for (const interval of data)` loop of
`divideIntoRows`: if the interval starts no earlier than `lastEndTime`, write
`rowIndex` into the row field of the first interval of the current array whose
`pushID` matches (`data.find`), and advance `lastEndTime`; otherwise defer the
interval to the next pass. -/
def passStep (all : List Item) (cur : List Nat) (rowIndex : Nat)
    (s : PassState) (i : Nat) : PassState :=
  if s.lastEnd ≤ startOf all i then
    match cur.find? (fun j => decide (idOf all j = idOf all i)) with
    | some j => ⟨s.rows.set j rowIndex, s.writes ++ [j], endOf all i, s.deferred⟩
    | none => ⟨s.rows, s.writes, endOf all i, s.deferred⟩
  else ⟨s.rows, s.writes, s.lastEnd, s.deferred ++ [i]⟩

/-- One full pass of `divideIntoRows` over the current interval list `cur`,
with `lastEndTime` reset to `0` and an empty deferred list. -/
def onePass (all : List Item) (rowIndex : Nat) (rows : List Nat)
    (cur : List Nat) : PassState :=
  cur.foldl (passStep all cur rowIndex) ⟨rows, [], 0, []⟩

/-- The `while (overlappingIntervals.length !== 0)` loop of `divideIntoRows`.
The loop guard is checked against the placeholder `[data[0]]` first, which has
length 1 even for empty data, so the body always runs at least once; the
embedding therefore always performs the first pass.  `fuel` bounds the number
of passes; `none` models non-termination of the source loop (every pass that
places at least one interval shrinks the list, so a run that needs more than
`data.length + 1` passes never finishes).  Returns the final row assignments,
the instrumented write log, and `rowIndex`. -/
def packLoop (all : List Item) : Nat → List Nat → List Nat → List Nat → Nat →
    Option (List Nat × List Nat × Nat)
  | 0, _, _, _, _ => none
  | fuel + 1, cur, rows, writes, rowIndex =>
    let s := onePass all rowIndex rows cur
    if s.deferred = [] then some (s.rows, writes ++ s.writes, rowIndex + 1)
    else packLoop all fuel s.deferred s.rows (writes ++ s.writes) (rowIndex + 1)

/-- The sort at the head of `divideIntoRows`:
`data.sort((a, b) => a.startTime - b.startTime)` (stable, ascending). -/
def sortByStart (data : List Item) : List Item := List.insertionSort byStart data

/-- The full instrumented run of `divideIntoRows`: sort, then pack. -/
def divideIntoRowsRun (data : List Item) : Option (List Nat × List Nat × Nat) :=
  let sorted := sortByStart data
  packLoop sorted (sorted.length + 1) (List.range sorted.length)
    (sorted.map (·.row)) [] 0

/-- `divideIntoRows` of `timeline.component.ts`, observed through its effect:
the mutated (sorted, row-annotated) array together with the returned row
count.  `none` models non-termination of the source loop. -/
def divideIntoRows (data : List Item) : Option (List Item × Nat) :=
  let sorted := sortByStart data
  match divideIntoRowsRun data with
  | none => none
  | some (rows, _, rowIndex) =>
    some ((List.range sorted.length).map
      (fun i => { sorted.getD i default with row := rows.getD i 0 }), rowIndex)

/-- The body of the `forEach` of the timeline `populateData`: the `Item`
contributed by one push.  `none` models a thrown `TypeError` (empty
`stateInfo`, where `states[0]` is `undefined`); `some none` models an early
`return`. -/
def itemOf (p : PushInfo) : Option (Option Item) :=
  match p.stateInfo with
  | none => some none
  | some states =>
    match states.head?, states.getLast? with
    | some firstState, some lastState =>
      if !truthyInt firstState.startTimeNsec then some none
      else if !truthyInt lastState.startTimeNsec then some none
      else if !truthyStr p.pushHandle then some none
      else if !truthyInt lastState.state then some none
      else
        some (some
          { pushID := p.pushHandle.getD ""
            state := lastState.state.getD 0
            startTime := ((firstState.startTimeNsec.getD 0 : Int) : ℚ) / NSEC_PER_MSEC
            endTime := ((lastState.startTimeNsec.getD 0 : Int) : ℚ) / NSEC_PER_MSEC
            row := 0 })
    | _, _ => none

/-- The `Item`s accumulated by the `forEach` of the timeline `populateData`,
in input order; `none` if any iteration throws. -/
def itemsOf : List PushInfo → Option (List Item)
  | [] => some []
  | p :: ps =>
    match itemOf p with
    | none => none
    | some none => itemsOf ps
    | some (some it) => (itemsOf ps).map (it :: ·)

/-- `populateData` of `timeline.component.ts`: `null` input returns
`[[], 0]` without packing; otherwise extract the intervals and divide them
into rows (the sort happens in place, so the returned array is the sorted,
row-annotated one). -/
def populateData (pushInfos : Option (List PushInfo)) : Option (List Item × Nat) :=
  match pushInfos with
  | none => some ([], 0)
  | some ps =>
    match itemsOf ps with
    | none => none
    | some data => divideIntoRows data

/-- Placement skeleton of one pass: the branch structure of `passStep`
without the row writes.  Returns the placed indices, the deferred indices
(both in order), and the final `lastEndTime`. -/
def splitPass (all : List Item) : List Nat → ℚ → List Nat × List Nat × ℚ
  | [], lastEnd => ([], [], lastEnd)
  | i :: rest, lastEnd =>
    if lastEnd ≤ startOf all i then
      (i :: (splitPass all rest (endOf all i)).1,
       (splitPass all rest (endOf all i)).2.1,
       (splitPass all rest (endOf all i)).2.2)
    else
      ((splitPass all rest lastEnd).1,
       i :: (splitPass all rest lastEnd).2.1,
       (splitPass all rest lastEnd).2.2)

/-- Number of intervals of `data` whose closed-open time span `[startTime,
endTime)` contains the time `t`: the instantaneous overlap depth at `t`. -/
def depthAt (data : List Item) (t : ℚ) : Nat :=
  data.countP (fun it => decide (it.startTime ≤ t ∧ t < it.endTime))

/-- An interval with its mutable `row` output field reset to its initial
value `0`; used to compare inputs and outputs on all other fields. -/
def eraseRow (it : Item) : Item := { it with row := 0 }

/-- Distinctness of push ids, index-wise over the sorted array. -/
def GoodIds (all : List Item) : Prop :=
  ∀ i j, i < all.length → j < all.length → idOf all i = idOf all j → i = j

end Timeline

namespace Cdf

/-- The bisection loop, run with enough fuel and with boundary invariants on
`lo` and `hi`, lands exactly at the boundary of a predicate that is downward
closed along the list. -/
lemma bisectLoop_spec (p : ℚ → Bool) (a : List ℚ)
    (hmono : ∀ i j, i ≤ j → j < a.length → p (a.getD j 0) → p (a.getD i 0)) :
    ∀ (fuel lo hi : Nat), lo ≤ hi → hi ≤ a.length → hi - lo ≤ fuel →
    (∀ i, i < lo → p (a.getD i 0)) →
    (∀ i, hi ≤ i → i < a.length → ¬ p (a.getD i 0)) →
    (∀ i, i < bisectLoop p a fuel lo hi → p (a.getD i 0)) ∧
    (∀ i, bisectLoop p a fuel lo hi ≤ i → i < a.length → ¬ p (a.getD i 0)) ∧
    bisectLoop p a fuel lo hi ≤ a.length := by
  intro fuel
  induction fuel with
  | zero =>
    intro lo hi hlohi hhin hfuel hbelow habove
    have : lo = hi := by omega
    subst this
    exact ⟨hbelow, habove, le_trans hlohi hhin⟩
  | succ fuel ih =>
    intro lo hi hlohi hhin hfuel hbelow habove
    by_cases hlt : lo < hi
    · have hmidlo : lo ≤ (lo + hi) / 2 := by omega
      have hmidhi : (lo + hi) / 2 < hi := by omega
      rw [bisectLoop, if_pos hlt]
      by_cases hp : p (a.getD ((lo + hi) / 2) 0)
      · rw [if_pos hp]
        refine ih ((lo + hi) / 2 + 1) hi (by omega) hhin (by omega) ?_ habove
        intro i hi'
        rcases Nat.lt_or_ge i lo with h | h
        · exact hbelow i h
        · exact hmono i ((lo + hi) / 2) (by omega) (by omega) hp
      · rw [if_neg hp]
        refine ih lo ((lo + hi) / 2) hmidlo (by omega) (by omega) hbelow ?_
        intro i hi' hin
        intro hpi
        exact hp (hmono ((lo + hi) / 2) i hi' hin hpi)
    · rw [bisectLoop, if_neg hlt]
      have : lo = hi := by omega
      subst this
      exact ⟨hbelow, habove, le_trans hlohi hhin⟩

/-- A position that splits a list into a `p`-true prefix and a `p`-false
suffix equals `countP p`. -/
lemma countP_of_split (p : ℚ → Bool) (a : List ℚ) (r : Nat)
    (hr : r ≤ a.length)
    (htrue : ∀ i, i < r → p (a.getD i 0))
    (hfalse : ∀ i, r ≤ i → i < a.length → ¬ p (a.getD i 0)) :
    a.countP p = r := by
  have hsplit : a = a.take r ++ a.drop r := (List.take_append_drop r a).symm
  have hlen : (a.take r).length = r := by
    rw [List.length_take]
    omega
  have htake : (a.take r).countP p = r := by
    have hall : ∀ b ∈ a.take r, p b := by
      intro b hb
      rcases List.mem_iff_getElem.mp hb with ⟨i, hilt, hget⟩
      have hir : i < r := by omega
      have hia : i < a.length := by omega
      have hga : (a.take r)[i] = a[i] := List.getElem_take a
      have hpa := htrue i hir
      rw [List.getD_eq_getElem a 0 hia] at hpa
      rw [← hget, hga]
      exact hpa
    rw [List.countP_eq_length.mpr hall, hlen]
  have hdrop : (a.drop r).countP p = 0 := by
    refine List.countP_eq_zero.mpr ?_
    intro b hb
    rcases List.mem_iff_getElem.mp hb with ⟨i, hilt, hget⟩
    have hilt2 : i < a.length - r := by
      have h3 := List.length_drop r a
      omega
    have hia : r + i < a.length := by omega
    have hga : (a.drop r)[i] = a[r + i] := List.getElem_drop a
    have hpa := hfalse (r + i) (by omega) hia
    rw [List.getD_eq_getElem a 0 hia] at hpa
    rw [← hget, hga]
    exact hpa
  conv_lhs => rw [hsplit]
  rw [List.countP_append, htake, hdrop]
  omega

/-- Indices of a sorted list respect `≤` on values. -/
lemma sorted_getD_mono (a : List ℚ) (hs : a.Sorted (· ≤ ·)) (i j : Nat)
    (hij : i ≤ j) (hj : j < a.length) : a.getD i 0 ≤ a.getD j 0 := by
  rcases Nat.lt_or_ge i j with h | h
  · rw [List.getD_eq_getElem a 0 (lt_of_le_of_lt hij hj), List.getD_eq_getElem a 0 hj]
    exact List.pairwise_iff_getElem.mp hs i j (lt_of_le_of_lt hij hj) hj h
  · have : i = j := by omega
    subst this
    rfl

/-- On a sorted list, `bisectLeft a x` is the number of entries `< x`. -/
lemma bisectLeft_eq_countP (a : List ℚ) (x : ℚ) (hs : a.Sorted (· ≤ ·)) :
    bisectLeft a x = a.countP (fun v => decide (v < x)) := by
  have hmono : ∀ i j, i ≤ j → j < a.length →
      (fun v => decide (v < x)) (a.getD j 0) = true →
      (fun v => decide (v < x)) (a.getD i 0) = true := by
    intro i j hij hj hp
    simp only [decide_eq_true_eq] at hp ⊢
    exact lt_of_le_of_lt (sorted_getD_mono a hs i j hij hj) hp
  have h := bisectLoop_spec (fun v => decide (v < x)) a hmono a.length 0 a.length
    (Nat.zero_le _) le_rfl (by omega) (by omega) (by intro i h1 h2; omega)
  exact (countP_of_split _ a _ h.2.2 h.1 h.2.1).symm

/-- Reading every position of a list in order reproduces the list. -/
lemma map_range_getD (l : List ℚ) :
    (List.range l.length).map (fun i => l.getD i 0) = l := by
  apply List.ext_getElem
  · simp
  · intro i h1 h2
    simp only [List.getElem_map, List.getElem_range]
    exact List.getD_eq_getElem l 0 h2

/-- Length of the built table. -/
lemma buildTable_length (s : List ℚ) : (buildTable s).length = s.length := by
  simp [buildTable]

/-- Entries of the built table. -/
lemma buildTable_getElem (s : List ℚ) (i : Nat) (h : i < (buildTable s).length) :
    (buildTable s)[i] =
      (⟨s.getD i 0, ((i : ℚ) + 1) / (s.length : ℚ)⟩ : Item) := by
  rw [buildTable_length] at h
  simp [buildTable]

/-- The duration column of the built table is the sorted input array. -/
lemma buildTable_map_duration (s : List ℚ) :
    (buildTable s).map (·.duration) = s := by
  unfold buildTable
  rw [List.map_map]
  exact map_range_getD s

/-- A successful `populateData` run returns the table built from a sorted
duration array. -/
lemma populateData_some (ps : List PushInfo) (table : List Item)
    (h : populateData ps = some table) :
    ∃ sorted : List ℚ, sorted.Sorted (· ≤ ·) ∧ table = buildTable sorted := by
  unfold populateData at h
  cases hd : durationsOf ps with
  | none => rw [hd] at h; exact absurd h (by simp)
  | some ds =>
    rw [hd] at h
    refine ⟨List.insertionSort (· ≤ ·) ds, List.sorted_insertionSort (· ≤ ·) ds, ?_⟩
    exact (Option.some_inj.mp h).symm

/-- On a sorted list, `bisectRight a x` is the number of entries `≤ x`. -/
lemma bisectRight_eq_countP (a : List ℚ) (x : ℚ) (hs : a.Sorted (· ≤ ·)) :
    bisectRight a x = a.countP (fun v => decide (v ≤ x)) := by
  have hmono : ∀ i j, i ≤ j → j < a.length →
      (fun v => decide (v ≤ x)) (a.getD j 0) = true →
      (fun v => decide (v ≤ x)) (a.getD i 0) = true := by
    intro i j hij hj hp
    simp only [decide_eq_true_eq] at hp ⊢
    exact le_trans (sorted_getD_mono a hs i j hij hj) hp
  have h := bisectLoop_spec (fun v => decide (v ≤ x)) a hmono a.length 0 a.length
    (Nat.zero_le _) le_rfl (by omega) (by omega) (by intro i h1 h2; omega)
  exact (countP_of_split _ a _ h.2.2 h.1 h.2.1).symm

/-- Unfolding of `getProbabilityForDuration`. -/
lemma getProbabilityForDuration_eq (data : List Item) (x : ℚ) :
    getProbabilityForDuration data x =
      if bisectLeft (data.map (·.duration)) x = 0 then none
      else (data.get? (bisectLeft (data.map (·.duration)) x - 1)).map (·.probability) :=
  rfl

/-- For a duration-sorted table, the lookup throws exactly when no entry has a
duration strictly below the query — i.e. when the table is empty or the query
is at most the minimum duration. -/
lemma getProbabilityForDuration_none_iff (data : List Item) (x : ℚ)
    (hs : (data.map (·.duration)).Sorted (· ≤ ·)) :
    (getProbabilityForDuration data x = none ↔ ∀ it ∈ data, x ≤ it.duration) := by
  rw [getProbabilityForDuration_eq, bisectLeft_eq_countP _ _ hs]
  constructor
  · intro h it hit
    by_cases hc : (data.map (·.duration)).countP (fun v => decide (v < x)) = 0
    · have := List.countP_eq_zero.mp hc it.duration (List.mem_map_of_mem _ hit)
      simpa using this
    · rw [if_neg hc] at h
      have hlt : (data.map (·.duration)).countP (fun v => decide (v < x)) - 1 <
          data.length := by
        have := List.countP_le_length (l := data.map (·.duration))
          (p := fun v => decide (v < x))
        rw [List.length_map] at this
        omega
      rw [List.get?_eq_getElem?, List.getElem?_eq_getElem hlt] at h
      simp at h
  · intro h
    have hc : (data.map (·.duration)).countP (fun v => decide (v < x)) = 0 := by
      refine List.countP_eq_zero.mpr ?_
      intro v hv
      rcases List.mem_map.mp hv with ⟨it, hit, rfl⟩
      simpa using not_lt.mpr (h it hit)
    rw [if_pos hc]

/-- When the lookup succeeds it returns the probability of some table entry. -/
lemma getProbabilityForDuration_some_mem (data : List Item) (x p : ℚ)
    (h : getProbabilityForDuration data x = some p) :
    ∃ it ∈ data, it.probability = p := by
  rw [getProbabilityForDuration_eq] at h
  by_cases hc : bisectLeft (data.map (·.duration)) x = 0
  · rw [if_pos hc] at h
    exact absurd h (by simp)
  · rw [if_neg hc] at h
    rcases Option.map_eq_some'.mp h with ⟨it, hget, hp⟩
    exact ⟨it, List.get?_mem hget, hp⟩

/-- On a sorted list with no duplicates, the number of entries strictly below
the `i`-th entry is `i`. -/
lemma countP_lt_getD_eq (s : List ℚ) (hsort : s.Sorted (· ≤ ·)) (hnd : s.Nodup)
    (i : Nat) (h : i < s.length) :
    s.countP (fun v => decide (v < s.getD i 0)) = i := by
  refine countP_of_split _ s i (le_of_lt h) ?_ ?_
  · intro j hj
    have hne : s.getD j 0 ≠ s.getD i 0 := by
      rw [List.getD_eq_getElem s 0 (lt_trans hj h), List.getD_eq_getElem s 0 h]
      exact List.pairwise_iff_getElem.mp hnd j i (lt_trans hj h) h hj
    have hle := sorted_getD_mono s hsort j i (le_of_lt hj) h
    simpa using lt_of_le_of_ne hle hne
  · intro j hj hjn
    have hle := sorted_getD_mono s hsort i j hj hjn
    simpa using not_lt.mpr hle

/-- Value of the CDF lookup at the `i`-th entry of a duplicate-free table:
`none` for `i = 0`, the probability of the previous entry otherwise. -/
lemma getProb_at_entry (s : List ℚ) (hsort : s.Sorted (· ≤ ·)) (hnd : s.Nodup)
    (i : Nat) (h : i < s.length) :
    getProbabilityForDuration (buildTable s) (s.getD i 0) =
      if i = 0 then none else some ((i : ℚ) / (s.length : ℚ)) := by
  rw [getProbabilityForDuration_eq, buildTable_map_duration,
    bisectLeft_eq_countP s _ hsort, countP_lt_getD_eq s hsort hnd i h]
  by_cases hi : i = 0
  · rw [if_pos hi, if_pos hi]
  · rw [if_neg hi, if_neg hi]
    have hi1 : i - 1 < (buildTable s).length := by
      rw [buildTable_length]; omega
    rw [List.get?_eq_getElem?, List.getElem?_eq_getElem hi1,
      buildTable_getElem s (i - 1) hi1]
    simp only [Option.map_some']
    congr 1
    have : ((i : ℚ) - 1) + 1 = (i : ℚ) := by ring
    rw [show (((i - 1 : Nat) : ℚ)) = (i : ℚ) - 1 by
      push_cast [Nat.cast_sub (by omega : 1 ≤ i)]; ring]
    rw [this]

/-- Unfolding of `getDurationforProbability`. -/
lemma getDurationforProbability_eq (data : List Item) (p : ℚ) :
    getDurationforProbability data p =
      if bisectLeft (data.map (·.probability)) p = 0 then none
      else
        match data.get? (bisectLeft (data.map (·.probability)) p - 1),
            data.get? (bisectRight (data.map (·.probability)) p) with
        | some left, some right =>
          some ((p - left.probability) * (right.duration - left.duration)
            / (right.probability - left.probability) + left.duration)
        | _, _ => none :=
  rfl

/-- On a strictly increasing probability column that brackets `p`, the
inverse lookup does not throw. -/
lemma getDurationforProbability_isSome (data : List Item) (p : ℚ)
    (hs : (data.map (·.probability)).Sorted (· < ·))
    (hlow : ∃ a, data.head? = some a ∧ a.probability < p)
    (hhigh : ∃ b, data.getLast? = some b ∧ p < b.probability) :
    (getDurationforProbability data p).isSome := by
  have hsle : (data.map (·.probability)).Sorted (· ≤ ·) :=
    hs.imp (fun hab => le_of_lt hab)
  rw [getDurationforProbability_eq, bisectLeft_eq_countP _ _ hsle,
    bisectRight_eq_countP _ _ hsle]
  obtain ⟨a, ha, hap⟩ := hlow
  obtain ⟨b, hb, hpb⟩ := hhigh
  have hc1 : 0 < (data.map (·.probability)).countP (fun v => decide (v < p)) := by
    refine List.countP_pos_iff.mpr ⟨a.probability, ?_, by simpa using hap⟩
    exact List.mem_map_of_mem _ (List.mem_of_mem_head? (by rw [ha]; rfl))
  have hmemb : b.probability ∈ data.map (·.probability) :=
    List.mem_map_of_mem _ (List.mem_of_mem_getLast? (by rw [hb]; rfl))
  have hc2 : (data.map (·.probability)).countP (fun v => decide (v ≤ p)) <
      data.length := by
    have hle := List.countP_le_length (fun v => decide (v ≤ p))
      (l := data.map (·.probability))
    rw [List.length_map] at hle
    rcases lt_or_eq_of_le hle with h | h
    · exact h
    · exfalso
      have hall := List.countP_eq_length.mp (by rw [h, List.length_map])
      have hbp := hall b.probability hmemb
      simp only [decide_eq_true_eq] at hbp
      exact absurd hbp (not_le.mpr hpb)
  have hlt1 : (data.map (·.probability)).countP (fun v => decide (v < p)) - 1 <
      data.length := by
    have := List.countP_le_length (fun v => decide (v < p))
      (l := data.map (·.probability))
    rw [List.length_map] at this
    omega
  rw [if_neg (by omega), List.get?_eq_get hlt1, List.get?_eq_get hc2]
  rfl

/-- Unfolding of one step of `generateQuantiles`. -/
lemma generateQuantiles_succ (fuel : Nat) (data : List Item) (p0 p1 p2 : ℚ)
    (xScale : ℚ → ℚ) :
    generateQuantiles (fuel + 1) data (p0, p1, p2) xScale =
      if p0 < 1/100 ∨ p2 > 99/100 then
        (getDurationforProbability data p1).map fun d => [⟨d, p1⟩]
      else
        match getDurationforProbability data p0, getDurationforProbability data p1,
            getDurationforProbability data p2 with
        | some d0, some d1, some d2 =>
          if xScale (d1 - d0) < 15 ∨ xScale (d2 - d1) < 15 then
            generateQuantiles fuel data (p0 - 1/100, p1, p2 + 1/100) xScale
          else some [⟨d0, p0⟩, ⟨d1, p1⟩, ⟨d2, p2⟩]
        | _, _, _ => none :=
  rfl

/-- Behaviour of the quantile recursion from widening step `10 - j` on, for
a table whose lookups succeed on the whole queried range: it terminates with
three markers, or with the single mid marker exactly when every remaining
spacing test fails. -/
lemma generateQuantiles_spec (data : List Item) (xScale : ℚ → ℚ)
    (hsome : ∀ p : ℚ, 1/100 ≤ p → p ≤ 99/100 →
      (getDurationforProbability data p).isSome) :
    ∀ j : Nat, j ≤ 10 →
      ∃ l, generateQuantiles (j + 1) data
        (1/10 - ((10 - j : Nat) : ℚ)/100, 1/2, 9/10 + ((10 - j : Nat) : ℚ)/100)
        xScale = some l ∧
      (l.length = 3 ∨ l.length = 1) ∧
      (l.length = 1 ↔ ∀ m : Nat, 10 - j ≤ m → m < 10 →
        spacingFailAt data xScale m) := by
  intro j
  induction j with
  | zero =>
    intro _
    obtain ⟨d1, hd1⟩ := Option.isSome_iff_exists.mp
      (hsome (1/2) (by norm_num) (by norm_num))
    refine ⟨[⟨d1, 1/2⟩], ?_, Or.inr rfl, ?_⟩
    · rw [generateQuantiles_succ, if_pos (by norm_num), hd1]
      rfl
    · constructor
      · intro _ m hm1 hm2
        omega
      · intro _
        rfl
  | succ j ih =>
    intro hj
    have hj9 : j ≤ 9 := by omega
    have hcast : ((10 - (j + 1) : Nat) : ℚ) = 9 - (j : ℚ) := by
      rw [Nat.cast_sub (by omega : j + 1 ≤ 10)]
      push_cast
      ring
    have hjq : (j : ℚ) ≤ 9 := by exact_mod_cast hj9
    have hjq0 : (0 : ℚ) ≤ (j : ℚ) := Nat.cast_nonneg j
    have hp0lo : (1 : ℚ)/100 ≤ 1/10 - ((10 - (j + 1) : Nat) : ℚ)/100 := by
      rw [hcast]; linarith
    have hp0hi : 1/10 - ((10 - (j + 1) : Nat) : ℚ)/100 ≤ (99 : ℚ)/100 := by
      rw [hcast]; linarith
    have hp2lo : (1 : ℚ)/100 ≤ 9/10 + ((10 - (j + 1) : Nat) : ℚ)/100 := by
      rw [hcast]; linarith
    have hp2hi : 9/10 + ((10 - (j + 1) : Nat) : ℚ)/100 ≤ (99 : ℚ)/100 := by
      rw [hcast]; linarith
    obtain ⟨d0, hd0⟩ := Option.isSome_iff_exists.mp
      (hsome (1/10 - ((10 - (j + 1) : Nat) : ℚ)/100) hp0lo hp0hi)
    obtain ⟨d1, hd1⟩ := Option.isSome_iff_exists.mp
      (hsome (1/2) (by norm_num) (by norm_num))
    obtain ⟨d2, hd2⟩ := Option.isSome_iff_exists.mp
      (hsome (9/10 + ((10 - (j + 1) : Nat) : ℚ)/100) hp2lo hp2hi)
    have hbase : ¬ (1/10 - ((10 - (j + 1) : Nat) : ℚ)/100 < 1/100 ∨
        9/10 + ((10 - (j + 1) : Nat) : ℚ)/100 > 99/100) := by
      push_neg
      exact ⟨hp0lo, hp2hi⟩
    have hfail : spacingFailAt data xScale (10 - (j + 1)) ↔
        (xScale (d1 - d0) < 15 ∨ xScale (d2 - d1) < 15) := by
      unfold spacingFailAt
      rw [hd0, hd1, hd2]
      rfl
    have harg0 : 1/10 - ((10 - (j + 1) : Nat) : ℚ)/100 - 1/100 =
        1/10 - ((10 - j : Nat) : ℚ)/100 := by
      rw [hcast, show ((10 - j : Nat) : ℚ) = 10 - (j : ℚ) by
        rw [Nat.cast_sub (by omega : j ≤ 10)]; push_cast; ring]
      ring
    have harg2 : 9/10 + ((10 - (j + 1) : Nat) : ℚ)/100 + 1/100 =
        9/10 + ((10 - j : Nat) : ℚ)/100 := by
      rw [hcast, show ((10 - j : Nat) : ℚ) = 10 - (j : ℚ) by
        rw [Nat.cast_sub (by omega : j ≤ 10)]; push_cast; ring]
      ring
    rw [generateQuantiles_succ]
    rw [if_neg hbase, hd0, hd1, hd2]
    dsimp only
    by_cases hsp : xScale (d1 - d0) < 15 ∨ xScale (d2 - d1) < 15
    · rw [if_pos hsp, harg0, harg2]
      obtain ⟨l, hl, hlen, hiff⟩ := ih (by omega)
      refine ⟨l, hl, hlen, ?_⟩
      rw [hiff]
      constructor
      · intro h m hm1 hm2
        by_cases hm : m = 10 - (j + 1)
        · subst hm
          exact hfail.mpr hsp
        · exact h m (by omega) hm2
      · intro h m hm1 hm2
        exact h m (by omega) hm2
    · rw [if_neg hsp]
      refine ⟨[⟨d0, _⟩, ⟨d1, 1/2⟩, ⟨d2, _⟩], rfl, Or.inl rfl, ?_⟩
      constructor
      · intro h3
        simp at h3
      · intro hall
        exact absurd (hfail.mp (hall (10 - (j + 1)) le_rfl (by omega))) hsp

end Cdf

namespace Timeline

/-- Under distinct push ids, `data.find` locates the probed interval itself. -/
lemma find_self (all : List Item) (hID : GoodIds all) :
    ∀ (cur : List Nat) (i : Nat), i ∈ cur → (∀ j ∈ cur, j < all.length) →
    i < all.length →
    cur.find? (fun j => decide (idOf all j = idOf all i)) = some i := by
  intro cur
  induction cur with
  | nil => intro i hmem; exact absurd hmem (List.not_mem_nil i)
  | cons c rest ih =>
    intro i hmem hbound hi
    by_cases hc : idOf all c = idOf all i
    · have hci : c = i := hID c i (hbound c (List.mem_cons_self c rest)) hi hc
      subst hci
      simp [List.find?_cons, hc]
    · have hir : i ∈ rest := by
        rcases List.mem_cons.mp hmem with h | h
        · exact absurd (h ▸ rfl) hc
        · exact h
      rw [List.find?_cons_of_neg rest (by simpa using hc)]
      exact ih i hir (fun j hj => hbound j (List.mem_cons_of_mem c hj)) hi

/-- Reduction of `passStep` when the interval is placed (distinct ids). -/
lemma passStep_placed (all : List Item) (hID : GoodIds all) (cur₀ : List Nat)
    (rowIndex : Nat) (s : PassState) (i : Nat)
    (hle : s.lastEnd ≤ startOf all i) (hicur : i ∈ cur₀)
    (hbound₀ : ∀ j ∈ cur₀, j < all.length) (hilen : i < all.length) :
    passStep all cur₀ rowIndex s i =
      ⟨s.rows.set i rowIndex, s.writes ++ [i], endOf all i, s.deferred⟩ := by
  unfold passStep
  rw [if_pos hle, find_self all hID cur₀ i hicur hbound₀ hilen]

/-- Reduction of `passStep` when the interval is deferred. -/
lemma passStep_put_off (all : List Item) (cur₀ : List Nat) (rowIndex : Nat)
    (s : PassState) (i : Nat) (hle : ¬ s.lastEnd ≤ startOf all i) :
    passStep all cur₀ rowIndex s i =
      ⟨s.rows, s.writes, s.lastEnd, s.deferred ++ [i]⟩ := by
  unfold passStep
  rw [if_neg hle]

/-- The deferred list and the final `lastEndTime` of a pass fold follow the
placement skeleton, independently of row writes. -/
lemma foldl_passStep_deferred (all : List Item) (cur₀ : List Nat) (rowIndex : Nat) :
    ∀ (rest : List Nat) (s : PassState),
      ((rest.foldl (passStep all cur₀ rowIndex) s).deferred
        = s.deferred ++ (splitPass all rest s.lastEnd).2.1) ∧
      ((rest.foldl (passStep all cur₀ rowIndex) s).lastEnd
        = (splitPass all rest s.lastEnd).2.2) := by
  intro rest
  induction rest with
  | nil => intro s; simp [splitPass]
  | cons i rest ih =>
    intro s
    rw [List.foldl_cons]
    unfold passStep
    by_cases hle : s.lastEnd ≤ startOf all i
    · rw [if_pos hle]
      cases hf : cur₀.find? (fun j => decide (idOf all j = idOf all i)) with
      | some j =>
        have := ih ⟨s.rows.set j rowIndex, s.writes ++ [j], endOf all i, s.deferred⟩
        simpa [splitPass, hle] using this
      | none =>
        have := ih ⟨s.rows, s.writes, endOf all i, s.deferred⟩
        simpa [splitPass, hle] using this
    · rw [if_neg hle]
      have := ih ⟨s.rows, s.writes, s.lastEnd, s.deferred ++ [i]⟩
      simpa [splitPass, hle, List.append_assoc] using this

/-- Under distinct push ids the writes of a pass fold are exactly the placed
indices, each row write targets the placed interval itself, and a row value is
`rowIndex` exactly on the placed indices. -/
lemma foldl_passStep_writes (all : List Item) (hID : GoodIds all)
    (cur₀ : List Nat) (rowIndex : Nat) (hbound₀ : ∀ j ∈ cur₀, j < all.length) :
    ∀ (rest : List Nat) (s : PassState), (∀ i ∈ rest, i ∈ cur₀) →
      s.rows.length = all.length →
      ((rest.foldl (passStep all cur₀ rowIndex) s).writes
        = s.writes ++ (splitPass all rest s.lastEnd).1) ∧
      ((rest.foldl (passStep all cur₀ rowIndex) s).rows.length = all.length) ∧
      (∀ n : Nat, (rest.foldl (passStep all cur₀ rowIndex) s).rows.getD n 0
        = if n ∈ (splitPass all rest s.lastEnd).1 then rowIndex
          else s.rows.getD n 0) := by
  intro rest
  induction rest with
  | nil =>
    intro s hsub hrows
    refine ⟨by simp [splitPass], by simpa using hrows, ?_⟩
    intro n
    simp [splitPass]
  | cons i rest ih =>
    intro s hsub hrows
    have hicur : i ∈ cur₀ := hsub i (List.mem_cons_self i rest)
    have hisub : ∀ a ∈ rest, a ∈ cur₀ := fun a ha => hsub a (List.mem_cons_of_mem i ha)
    have hilen : i < all.length := hbound₀ i hicur
    rw [List.foldl_cons]
    by_cases hle : s.lastEnd ≤ startOf all i
    · rw [passStep_placed all hID cur₀ rowIndex s i hle hicur hbound₀ hilen]
      have hset : (s.rows.set i rowIndex).length = all.length := by
        simpa using hrows
      have H := ih ⟨s.rows.set i rowIndex, s.writes ++ [i], endOf all i, s.deferred⟩
        hisub hset
      refine ⟨?_, H.2.1, ?_⟩
      · rw [H.1]
        simp [splitPass, hle]
      · intro n
        rw [H.2.2 n]
        simp only [splitPass, if_pos hle, List.mem_cons]
        by_cases hn : n ∈ (splitPass all rest (endOf all i)).1
        · simp [hn]
        · simp only [hn, if_false, or_false]
          by_cases hni : n = i
          · subst hni
            rw [if_pos rfl]
            have hlt : n < s.rows.length := by rw [hrows]; exact hilen
            rw [List.getD_eq_getElem?_getD, List.getElem?_set_self hlt]
            rfl
          · rw [if_neg hni]
            rw [List.getD_eq_getElem?_getD, List.getElem?_set_ne (fun h => hni h.symm),
              List.getD_eq_getElem?_getD]
    · rw [passStep_put_off all cur₀ rowIndex s i hle]
      have H := ih ⟨s.rows, s.writes, s.lastEnd, s.deferred ++ [i]⟩ hisub hrows
      refine ⟨?_, H.2.1, ?_⟩
      · rw [H.1]
        simp [splitPass, hle]
      · intro n
        rw [H.2.2 n]
        simp [splitPass, hle]

/-- Placed and deferred lists are sublists of the processed list. -/
lemma splitPass_sublists (all : List Item) :
    ∀ (rest : List Nat) (le : ℚ),
      (splitPass all rest le).1.Sublist rest ∧
      (splitPass all rest le).2.1.Sublist rest := by
  intro rest
  induction rest with
  | nil => intro le; simp [splitPass]
  | cons i rest ih =>
    intro le
    by_cases hle : le ≤ startOf all i
    · simp only [splitPass, if_pos hle]
      exact ⟨List.Sublist.cons₂ i (ih (endOf all i)).1,
        List.Sublist.cons i (ih (endOf all i)).2⟩
    · simp only [splitPass, if_neg hle]
      exact ⟨List.Sublist.cons i (ih le).1, List.Sublist.cons₂ i (ih le).2⟩

/-- Placed and deferred lists partition the processed list. -/
lemma splitPass_perm (all : List Item) :
    ∀ (rest : List Nat) (le : ℚ),
      ((splitPass all rest le).1 ++ (splitPass all rest le).2.1).Perm rest := by
  intro rest
  induction rest with
  | nil => intro le; simp [splitPass]
  | cons i rest ih =>
    intro le
    by_cases hle : le ≤ startOf all i
    · simp only [splitPass, if_pos hle, List.cons_append]
      exact (ih (endOf all i)).cons i
    · simp only [splitPass, if_neg hle]
      exact List.perm_middle.trans ((ih le).cons i)

/-- The placed intervals of one pass form a chain: each placed interval
starts no earlier than the running `lastEndTime`, hence no earlier than the
end of every earlier placed interval. -/
lemma splitPass_chain (all : List Item) :
    ∀ (rest : List Nat) (le : ℚ),
      (∀ i ∈ rest, startOf all i ≤ endOf all i) →
      (∀ j ∈ (splitPass all rest le).1, le ≤ startOf all j) ∧
      (splitPass all rest le).1.Pairwise
        (fun a b => endOf all a ≤ startOf all b) := by
  intro rest
  induction rest with
  | nil => intro le hse; simp [splitPass]
  | cons i rest ih =>
    intro le hse
    have hsei : startOf all i ≤ endOf all i := hse i (List.mem_cons_self i rest)
    have hserest : ∀ a ∈ rest, startOf all a ≤ endOf all a :=
      fun a ha => hse a (List.mem_cons_of_mem i ha)
    by_cases hle : le ≤ startOf all i
    · simp only [splitPass, if_pos hle]
      rcases ih (endOf all i) hserest with ⟨hstart, hpair⟩
      constructor
      · intro j hj
        rcases List.mem_cons.mp hj with rfl | hj
        · exact hle
        · exact le_trans (le_trans hle hsei) (hstart j hj)
      · exact List.pairwise_cons.mpr ⟨fun j hj => hstart j hj, hpair⟩
    · simp only [splitPass, if_neg hle]
      exact ih le hserest

/-- Every deferred interval is blocked: its start time lies strictly inside
some placed interval of the same pass, or below the initial `lastEndTime`. -/
lemma splitPass_blocked (all : List Item) :
    ∀ (rest : List Nat) (le : ℚ),
      rest.Pairwise (fun a b => startOf all a ≤ startOf all b) →
      ∀ i ∈ (splitPass all rest le).2.1,
        startOf all i < le ∨
        ∃ j ∈ (splitPass all rest le).1,
          startOf all j ≤ startOf all i ∧ startOf all i < endOf all j := by
  intro rest
  induction rest with
  | nil => intro le hpair i hi; simp [splitPass] at hi
  | cons i0 rest ih =>
    intro le hpair i hi
    rcases List.pairwise_cons.mp hpair with ⟨hhead, htail⟩
    by_cases hle : le ≤ startOf all i0
    · simp only [splitPass, if_pos hle] at hi ⊢
      rcases ih (endOf all i0) htail i hi with hblock | ⟨j, hj, hj1, hj2⟩
      · refine Or.inr ⟨i0, List.mem_cons_self i0 _, ?_, hblock⟩
        have himem : i ∈ rest :=
          (splitPass_sublists all rest (endOf all i0)).2.subset hi
        exact hhead i himem
      · exact Or.inr ⟨j, List.mem_cons_of_mem i0 hj, hj1, hj2⟩
    · simp only [splitPass, if_neg hle] at hi ⊢
      rcases List.mem_cons.mp hi with rfl | hi
      · exact Or.inl (not_le.mp hle)
      · rcases ih le htail i hi with hblock | ⟨j, hj, hj1, hj2⟩
        · exact Or.inl hblock
        · exact Or.inr ⟨j, hj, hj1, hj2⟩

/-- A chain of intervals contains at most one interval around any given
point (closed-open containment). -/
lemma chain_countP_le_one (all : List Item) (t : ℚ) :
    ∀ (p : List Nat),
      p.Pairwise (fun a b => endOf all a ≤ startOf all b) →
      p.countP (fun i => decide (startOf all i ≤ t ∧ t < endOf all i)) ≤ 1 := by
  intro p
  induction p with
  | nil => intro _; simp
  | cons a rest ih =>
    intro hpair
    rcases List.pairwise_cons.mp hpair with ⟨hhead, htail⟩
    rw [List.countP_cons]
    by_cases ha : startOf all a ≤ t ∧ t < endOf all a
    · have hzero : rest.countP
          (fun i => decide (startOf all i ≤ t ∧ t < endOf all i)) = 0 := by
        refine List.countP_eq_zero.mpr ?_
        intro j hj
        have : endOf all a ≤ startOf all j := hhead j hj
        simp only [decide_eq_true_eq]
        intro hcontra
        exact absurd (lt_of_lt_of_le ha.2 this) (not_lt.mpr hcontra.1)
      rw [hzero]
      simp [ha]
    · rw [decide_eq_false ha]
      simpa using ih htail

/-- The deferred list of `onePass` follows the placement skeleton (no
assumptions on ids: write targets do not influence deferral). -/
lemma onePass_deferred_eq (all : List Item) (rowIndex : Nat) (rows cur : List Nat) :
    (onePass all rowIndex rows cur).deferred = (splitPass all cur 0).2.1 := by
  have h := (foldl_passStep_deferred all cur rowIndex cur ⟨rows, [], 0, []⟩).1
  simpa [onePass] using h

/-- Under distinct ids, the writes and row updates of `onePass` follow the
placement skeleton. -/
lemma onePass_spec (all : List Item) (hID : GoodIds all) (rowIndex : Nat)
    (rows cur : List Nat) (hbound : ∀ j ∈ cur, j < all.length)
    (hrows : rows.length = all.length) :
    (onePass all rowIndex rows cur).writes = (splitPass all cur 0).1 ∧
    (onePass all rowIndex rows cur).rows.length = all.length ∧
    (∀ n, (onePass all rowIndex rows cur).rows.getD n 0 =
      if n ∈ (splitPass all cur 0).1 then rowIndex else rows.getD n 0) := by
  have h := foldl_passStep_writes all hID cur rowIndex hbound cur
    ⟨rows, [], 0, []⟩ (fun i hi => hi) hrows
  simpa [onePass] using h

/-- Unfolding of one iteration of the packing loop. -/
lemma packLoop_succ (all : List Item) (fuel : Nat) (cur rows writes : List Nat)
    (r : Nat) :
    packLoop all (fuel + 1) cur rows writes r =
      if (onePass all r rows cur).deferred = []
      then some ((onePass all r rows cur).rows,
        writes ++ (onePass all r rows cur).writes, r + 1)
      else packLoop all fuel (onePass all r rows cur).deferred
        (onePass all r rows cur).rows
        (writes ++ (onePass all r rows cur).writes) (r + 1) := rfl

/-- The returned row count exceeds the starting row index. -/
lemma packLoop_rowIndex_lt (all : List Item) :
    ∀ (fuel : Nat) (cur rows writes : List Nat) (r : Nat) (rs ws : List Nat)
      (k : Nat), packLoop all fuel cur rows writes r = some (rs, ws, k) →
      r < k := by
  intro fuel
  induction fuel with
  | zero =>
    intro cur rows writes r rs ws k h
    simp [packLoop] at h
  | succ fuel ih =>
    intro cur rows writes r rs ws k h
    rw [packLoop_succ] at h
    by_cases hd : (onePass all r rows cur).deferred = []
    · rw [if_pos hd] at h
      simp only [Option.some.injEq, Prod.mk.injEq] at h
      omega
    · rw [if_neg hd] at h
      have := ih _ _ _ _ _ _ _ h
      omega

/-- Non-negative start times force termination of the packing loop: every
pass places its first interval, so the deferred list shrinks. -/
lemma packLoop_isSome (all : List Item) :
    ∀ (fuel : Nat) (cur rows writes : List Nat) (r : Nat),
      (∀ i ∈ cur, 0 ≤ startOf all i) → cur.length < fuel →
      (packLoop all fuel cur rows writes r).isSome := by
  intro fuel
  induction fuel with
  | zero => intro cur rows writes r _ hlen; omega
  | succ fuel ih =>
    intro cur rows writes r hpos hlen
    rw [packLoop_succ]
    by_cases hd : (onePass all r rows cur).deferred = []
    · rw [if_pos hd]
      simp
    · rw [if_neg hd]
      apply ih
      · intro a ha
        rw [onePass_deferred_eq] at ha
        exact hpos a ((splitPass_sublists all cur 0).2.subset ha)
      · rw [onePass_deferred_eq]
        rw [onePass_deferred_eq] at hd
        cases cur with
        | nil => simp [splitPass] at hd
        | cons i rest =>
          have h0 : (0 : ℚ) ≤ startOf all i := hpos i (List.mem_cons_self i rest)
          have hsplit : (splitPass all (i :: rest) 0).2.1 =
              (splitPass all rest (endOf all i)).2.1 := by
            simp [splitPass, h0]
          rw [hsplit]
          have hlen2 := (splitPass_sublists all rest (endOf all i)).2.length_le
          simp only [List.length_cons] at hlen
          omega

/-- Lower bound direction of row-count minimality: any point of time is
covered by at most `k - r` of the remaining intervals, because each pass
places at most one interval covering it. -/
lemma packLoop_depth_le (all : List Item) :
    ∀ (fuel : Nat) (cur rows writes : List Nat) (r : Nat) (rs ws : List Nat)
      (k : Nat), packLoop all fuel cur rows writes r = some (rs, ws, k) →
      (∀ i ∈ cur, startOf all i ≤ endOf all i) →
      ∀ t : ℚ,
        cur.countP (fun i => decide (startOf all i ≤ t ∧ t < endOf all i))
          ≤ k - r := by
  intro fuel
  induction fuel with
  | zero =>
    intro cur rows writes r rs ws k h
    simp [packLoop] at h
  | succ fuel ih =>
    intro cur rows writes r rs ws k h hse t
    rw [packLoop_succ] at h
    have hcount : cur.countP (fun i => decide (startOf all i ≤ t ∧ t < endOf all i)) =
        (splitPass all cur 0).1.countP
          (fun i => decide (startOf all i ≤ t ∧ t < endOf all i)) +
        (splitPass all cur 0).2.1.countP
          (fun i => decide (startOf all i ≤ t ∧ t < endOf all i)) := by
      rw [← List.countP_append]
      exact ((splitPass_perm all cur 0).countP_eq _).symm
    have hone := chain_countP_le_one all t _ (splitPass_chain all cur 0 hse).2
    by_cases hd : (onePass all r rows cur).deferred = []
    · rw [if_pos hd] at h
      simp only [Option.some.injEq, Prod.mk.injEq] at h
      rw [onePass_deferred_eq] at hd
      rw [hd] at hcount
      simp only [List.countP_nil] at hcount
      omega
    · rw [if_neg hd] at h
      have hlt := packLoop_rowIndex_lt all fuel _ _ _ _ _ _ _ h
      have hrec := ih _ _ _ _ _ _ _ h ?_ t
      · rw [onePass_deferred_eq] at hrec
        omega
      · intro i hi
        rw [onePass_deferred_eq] at hi
        exact hse i ((splitPass_sublists all cur 0).2.subset hi)

/-- Upper bound direction of row-count minimality: some remaining interval's
start time is covered by at least `k - r` remaining intervals — every pass a
deferred interval survives contributes a blocker covering that start time. -/
lemma packLoop_depth_witness (all : List Item) :
    ∀ (fuel : Nat) (cur rows writes : List Nat) (r : Nat) (rs ws : List Nat)
      (k : Nat), packLoop all fuel cur rows writes r = some (rs, ws, k) →
      cur ≠ [] →
      (∀ i ∈ cur, 0 ≤ startOf all i) →
      (∀ i ∈ cur, startOf all i < endOf all i) →
      cur.Pairwise (fun a b => startOf all a ≤ startOf all b) →
      ∃ i ∈ cur, k - r ≤ cur.countP (fun j =>
        decide (startOf all j ≤ startOf all i ∧ startOf all i < endOf all j)) := by
  intro fuel
  induction fuel with
  | zero =>
    intro cur rows writes r rs ws k h
    simp [packLoop] at h
  | succ fuel ih =>
    intro cur rows writes r rs ws k h hne hpos hlen hpair
    rw [packLoop_succ] at h
    by_cases hd : (onePass all r rows cur).deferred = []
    · rw [if_pos hd] at h
      simp only [Option.some.injEq, Prod.mk.injEq] at h
      cases cur with
      | nil => exact absurd rfl hne
      | cons i0 rest =>
        refine ⟨i0, List.mem_cons_self i0 rest, ?_⟩
        have hpos0 : 0 < (i0 :: rest).countP (fun j =>
            decide (startOf all j ≤ startOf all i0 ∧
              startOf all i0 < endOf all j)) := by
          refine List.countP_pos_iff.mpr ⟨i0, List.mem_cons_self i0 rest, ?_⟩
          simp only [decide_eq_true_eq]
          exact ⟨le_rfl, hlen i0 (List.mem_cons_self i0 rest)⟩
        omega
    · rw [if_neg hd] at h
      rw [onePass_deferred_eq] at hd h
      have hsub := (splitPass_sublists all cur 0).2
      have hrec := ih _ _ _ _ _ _ _ h hd
        (fun i hi => hpos i (hsub.subset hi))
        (fun i hi => hlen i (hsub.subset hi))
        (hpair.sublist hsub)
      rcases hrec with ⟨I, hId, hcnt⟩
      refine ⟨I, hsub.subset hId, ?_⟩
      have hblock := splitPass_blocked all cur 0 hpair I hId
      rcases hblock with hneg | ⟨j, hj, hj1, hj2⟩
      · exact absurd hneg (not_lt.mpr (hpos I (hsub.subset hId)))
      · have hplaced : 0 < (splitPass all cur 0).1.countP (fun j =>
            decide (startOf all j ≤ startOf all I ∧
              startOf all I < endOf all j)) := by
          refine List.countP_pos_iff.mpr ⟨j, hj, ?_⟩
          simp only [decide_eq_true_eq]
          exact ⟨hj1, hj2⟩
        have hcount : cur.countP (fun j =>
            decide (startOf all j ≤ startOf all I ∧
              startOf all I < endOf all j)) =
            (splitPass all cur 0).1.countP (fun j =>
              decide (startOf all j ≤ startOf all I ∧
                startOf all I < endOf all j)) +
            (splitPass all cur 0).2.1.countP (fun j =>
              decide (startOf all j ≤ startOf all I ∧
                startOf all I < endOf all j)) := by
          rw [← List.countP_append]
          exact ((splitPass_perm all cur 0).countP_eq _).symm
        have hlt := packLoop_rowIndex_lt all fuel _ _ _ _ _ _ _ h
        omega

/-- Main invariant of the packing loop under distinct push ids: on
termination the write log is a permutation of all indices (so every row field
is written exactly once), the row array keeps its length, and intervals
assigned equal rows never overlap. -/
lemma packLoop_main (all : List Item) (hID : GoodIds all)
    (hse : ∀ i, i < all.length → startOf all i ≤ endOf all i) :
    ∀ (fuel : Nat) (cur rows writes : List Nat) (r : Nat) (rs ws : List Nat)
      (k : Nat),
      packLoop all fuel cur rows writes r = some (rs, ws, k) →
      (writes ++ cur).Perm (List.range all.length) →
      rows.length = all.length →
      (∀ i ∈ writes, rows.getD i 0 < r) →
      (∀ i j, i ∈ writes → j ∈ writes → i ≠ j → rows.getD i 0 = rows.getD j 0 →
        endOf all i ≤ startOf all j ∨ endOf all j ≤ startOf all i) →
      ws.Perm (List.range all.length) ∧
      rs.length = all.length ∧
      (∀ i j, i ∈ ws → j ∈ ws → i ≠ j → rs.getD i 0 = rs.getD j 0 →
        endOf all i ≤ startOf all j ∨ endOf all j ≤ startOf all i) := by
  intro fuel
  induction fuel with
  | zero =>
    intro cur rows writes r rs ws k h
    simp [packLoop] at h
  | succ fuel ih =>
    intro cur rows writes r rs ws k h hperm hrows hlow hsep
    have hbound : ∀ j ∈ cur, j < all.length := by
      intro j hj
      exact List.mem_range.mp (hperm.subset (List.mem_append_right writes hj))
    have hnd : (writes ++ cur).Nodup := hperm.nodup_iff.mpr (List.nodup_range _)
    have hdisj : ∀ a, a ∈ writes → a ∈ cur → False := by
      intro a ha hc
      exact (List.nodup_append.mp hnd).2.2 ha hc
    have hS := onePass_spec all hID r rows cur hbound hrows
    have hsecur : ∀ i ∈ cur, startOf all i ≤ endOf all i :=
      fun i hi => hse i (hbound i hi)
    have hsubp := (splitPass_sublists all cur 0).1
    have hchain := (splitPass_chain all cur 0 hsecur).2
    have hpairsym : ∀ i j, i ∈ (splitPass all cur 0).1 →
        j ∈ (splitPass all cur 0).1 → i ≠ j →
        endOf all i ≤ startOf all j ∨ endOf all j ≤ startOf all i := by
      have hdisjp : (splitPass all cur 0).1.Pairwise
          (fun a b => endOf all a ≤ startOf all b ∨
            endOf all b ≤ startOf all a) := hchain.imp (fun hab => Or.inl hab)
      intro i j hi hj hne
      exact hdisjp.forall (fun a b hab => hab.symm) hi hj hne
    have hlow' : ∀ i ∈ writes ++ (splitPass all cur 0).1,
        (onePass all r rows cur).rows.getD i 0 < r + 1 := by
      intro i hi
      rcases List.mem_append.mp hi with hiw | hip
      · have hip : i ∉ (splitPass all cur 0).1 :=
          fun hp => hdisj i hiw (hsubp.subset hp)
        rw [hS.2.2 i, if_neg hip]
        exact Nat.lt_succ_of_lt (hlow i hiw)
      · rw [hS.2.2 i, if_pos hip]
        exact Nat.lt_succ_self r
    have hsep' : ∀ i j, i ∈ writes ++ (splitPass all cur 0).1 →
        j ∈ writes ++ (splitPass all cur 0).1 → i ≠ j →
        (onePass all r rows cur).rows.getD i 0 =
          (onePass all r rows cur).rows.getD j 0 →
        endOf all i ≤ startOf all j ∨ endOf all j ≤ startOf all i := by
      intro i j hi hj hne heq
      rcases List.mem_append.mp hi with hiw | hip <;>
        rcases List.mem_append.mp hj with hjw | hjp
      · have hip : i ∉ (splitPass all cur 0).1 :=
          fun hp => hdisj i hiw (hsubp.subset hp)
        have hjp : j ∉ (splitPass all cur 0).1 :=
          fun hp => hdisj j hjw (hsubp.subset hp)
        rw [hS.2.2 i, if_neg hip, hS.2.2 j, if_neg hjp] at heq
        exact hsep i j hiw hjw hne heq
      · have hip : i ∉ (splitPass all cur 0).1 :=
          fun hp => hdisj i hiw (hsubp.subset hp)
        rw [hS.2.2 i, if_neg hip, hS.2.2 j, if_pos hjp] at heq
        exact absurd heq (Nat.ne_of_lt (hlow i hiw))
      · have hjp : j ∉ (splitPass all cur 0).1 :=
          fun hp => hdisj j hjw (hsubp.subset hp)
        rw [hS.2.2 i, if_pos hip, hS.2.2 j, if_neg hjp] at heq
        exact absurd heq.symm (Nat.ne_of_lt (hlow j hjw))
      · exact hpairsym i j hip hjp hne
    have hperm' : ((writes ++ (splitPass all cur 0).1) ++
        (splitPass all cur 0).2.1).Perm (List.range all.length) := by
      have h1 : ((splitPass all cur 0).1 ++ (splitPass all cur 0).2.1).Perm cur :=
        splitPass_perm all cur 0
      have h2 : (writes ++ (splitPass all cur 0).1) ++ (splitPass all cur 0).2.1
          = writes ++ ((splitPass all cur 0).1 ++ (splitPass all cur 0).2.1) := by
        rw [List.append_assoc]
      rw [h2]
      exact (h1.append_left writes).trans hperm
    rw [packLoop_succ] at h
    by_cases hd : (onePass all r rows cur).deferred = []
    · rw [if_pos hd] at h
      simp only [Option.some.injEq, Prod.mk.injEq] at h
      rcases h with ⟨hrs, hws, hk⟩
      have hdef : (splitPass all cur 0).2.1 = [] := by
        rw [← onePass_deferred_eq all r rows cur]
        exact hd
      refine ⟨?_, ?_, ?_⟩
      · rw [← hws, hS.1]
        rw [hdef] at hperm'
        simpa using hperm'
      · rw [← hrs]
        exact hS.2.1
      · intro i j hi hj hne heq
        rw [← hws, hS.1] at hi hj
        rw [← hrs] at heq
        exact hsep' i j hi hj hne heq
    · rw [if_neg hd] at h
      rw [onePass_deferred_eq] at h
      rw [hS.1] at h
      exact ih _ _ _ _ _ _ _ h hperm' hS.2.1 hlow' hsep'

/-- Reading every position of an interval list in order reproduces it. -/
lemma map_range_getD_item (l : List Item) :
    (List.range l.length).map (fun i => l.getD i default) = l := by
  apply List.ext_getElem
  · simp
  · intro i h1 h2
    simp only [List.getElem_map, List.getElem_range]
    exact List.getD_eq_getElem l default h2

/-- Counting over positions equals counting over elements. -/
lemma countP_range_getD_item (l : List Item) (p : Item → Bool) :
    (List.range l.length).countP (fun i => p (l.getD i default)) = l.countP p := by
  have h := congrArg (List.countP p) (map_range_getD_item l)
  rw [List.countP_map] at h
  exact h

/-- The in-place sort is a permutation of the input. -/
lemma sortByStart_perm (data : List Item) : (sortByStart data).Perm data :=
  List.perm_insertionSort byStart data

/-- The in-place sort orders by ascending start time. -/
lemma sortByStart_sorted (data : List Item) : (sortByStart data).Sorted byStart :=
  List.sorted_insertionSort byStart data

/-- Membership of the element at a position. -/
lemma getD_mem (l : List Item) (i : Nat) (h : i < l.length) :
    l.getD i default ∈ l := by
  rw [List.getD_eq_getElem l default h]
  exact List.getElem_mem h

/-- Pairwise-distinct push ids survive sorting, index-wise. -/
lemma sortByStart_goodIds (data : List Item)
    (h : (data.map (·.pushID)).Nodup) : GoodIds (sortByStart data) := by
  have hperm : ((sortByStart data).map (·.pushID)).Perm (data.map (·.pushID)) :=
    (sortByStart_perm data).map _
  have hnd : ((sortByStart data).map (·.pushID)).Nodup := hperm.nodup_iff.mpr h
  intro i j hi hj heq
  by_contra hne
  have hlen : ((sortByStart data).map (·.pushID)).length = (sortByStart data).length :=
    List.length_map _ _
  have hget : ∀ m, ∀ hm2 : m < ((sortByStart data).map (·.pushID)).length,
      ((sortByStart data).map (·.pushID))[m] = idOf (sortByStart data) m := by
    intro m hm2
    rw [List.getElem_map]
    unfold idOf
    have hm : m < (sortByStart data).length := by omega
    rw [List.getD_eq_getElem _ default hm]
  have hpw := List.pairwise_iff_getElem.mp hnd
  rcases Nat.lt_or_ge i j with hij | hij
  · have := hpw i j (by omega) (by omega) hij
    rw [hget i (by omega), hget j (by omega)] at this
    exact this heq
  · have hji : j < i := by omega
    have := hpw j i (by omega) (by omega) hji
    rw [hget j (by omega), hget i (by omega)] at this
    exact this heq.symm

/-- Positions of the sorted array are ordered by start time. -/
lemma range_pairwise_byStart (data : List Item) :
    (List.range (sortByStart data).length).Pairwise
      (fun i j => startOf (sortByStart data) i ≤ startOf (sortByStart data) j) := by
  refine List.pairwise_iff_getElem.mpr ?_
  intro i j hi hj hij
  rw [List.getElem_range, List.getElem_range]
  have hi' : i < (sortByStart data).length := by simpa using hi
  have hj' : j < (sortByStart data).length := by simpa using hj
  unfold startOf
  rw [List.getD_eq_getElem _ default hi', List.getD_eq_getElem _ default hj']
  exact List.pairwise_iff_getElem.mp (sortByStart_sorted data) i j hi' hj' hij

/-- Decomposition of a successful `divideIntoRows` call. -/
lemma divideIntoRows_some (data out : List Item) (k : Nat)
    (h : divideIntoRows data = some (out, k)) :
    ∃ rows ws, divideIntoRowsRun data = some (rows, ws, k) ∧
      out = (List.range (sortByStart data).length).map
        (fun i => { (sortByStart data).getD i default with row := rows.getD i 0 }) := by
  unfold divideIntoRows at h
  cases hrun : divideIntoRowsRun data with
  | none => rw [hrun] at h; exact absurd h (by simp)
  | some triple =>
    rcases triple with ⟨rows, rest⟩
    rcases rest with ⟨ws, kk⟩
    rw [hrun] at h
    simp only [Option.some.injEq, Prod.mk.injEq] at h
    refine ⟨rows, ws, ?_, h.1.symm⟩
    rw [h.2]

/-- Reassembly of `divideIntoRows` from a successful run. -/
lemma divideIntoRows_of_run (data : List Item) (rows ws : List Nat) (k : Nat)
    (h : divideIntoRowsRun data = some (rows, ws, k)) :
    divideIntoRows data = some ((List.range (sortByStart data).length).map
      (fun i => { (sortByStart data).getD i default with row := rows.getD i 0 }), k) := by
  unfold divideIntoRows
  rw [h]

end Timeline

/-- C1 (amended): for every input list of intervals with pairwise-distinct
push ids and `endTime ≥ startTime`, whenever `divideIntoRows` terminates, any
two distinct intervals assigned the same row do not overlap: one ends no
later than the other starts (closed-open semantics, so an interval whose
start equals another's end may share its row). -/
theorem C1_rowPacker_no_overlap_within_row
    (data out : List Timeline.Item) (k : Nat)
    (hids : (data.map (·.pushID)).Nodup)
    (hse : ∀ it ∈ data, it.startTime ≤ it.endTime)
    (hrun : Timeline.divideIntoRows data = some (out, k)) :
    ∀ (i j : Nat) (a b : Timeline.Item), out[i]? = some a → out[j]? = some b →
      i ≠ j → a.row = b.row →
      a.endTime ≤ b.startTime ∨ b.endTime ≤ a.startTime := by
  obtain ⟨rows, ws, hrun', hout⟩ := Timeline.divideIntoRows_some data out k hrun
  simp only [Timeline.divideIntoRowsRun] at hrun'
  have hID := Timeline.sortByStart_goodIds data hids
  have hsei : ∀ m, m < (Timeline.sortByStart data).length →
      Timeline.startOf (Timeline.sortByStart data) m ≤
        Timeline.endOf (Timeline.sortByStart data) m := by
    intro m hm
    exact hse _ ((Timeline.sortByStart_perm data).subset
      (Timeline.getD_mem (Timeline.sortByStart data) m hm))
  have hmain := Timeline.packLoop_main (Timeline.sortByStart data) hID hsei
    ((Timeline.sortByStart data).length + 1)
    (List.range (Timeline.sortByStart data).length)
    ((Timeline.sortByStart data).map (·.row)) [] 0 rows ws k hrun'
    (by simp) (by simp) (by simp) (by simp)
  obtain ⟨hwsperm, hrowlen, hsep⟩ := hmain
  subst hout
  intro i j a b ha hb hne hrow
  rcases List.getElem?_eq_some.mp ha with ⟨hia, ha'⟩
  rcases List.getElem?_eq_some.mp hb with ⟨hjb, hb'⟩
  simp only [List.length_map, List.length_range] at hia hjb
  simp only [List.getElem_map, List.getElem_range] at ha' hb'
  have hiw : i ∈ ws := hwsperm.mem_iff.mpr (List.mem_range.mpr hia)
  have hjw : j ∈ ws := hwsperm.mem_iff.mpr (List.mem_range.mpr hjb)
  rw [← ha', ← hb'] at hrow
  simp only at hrow
  have hres := hsep i j hiw hjw hne hrow
  rw [← ha', ← hb']
  simpa [Timeline.startOf, Timeline.endOf] using hres

/-- C1 witness: two touching intervals (one starts exactly when the other
ends) share row 0 and satisfy the closed-open no-overlap property. -/
theorem C1_witness :
    ((⟨"a", 1, 0, 5, 0⟩ : Timeline.Item).endTime ≤
      (⟨"b", 1, 5, 10, 0⟩ : Timeline.Item).startTime) ∨
    ((⟨"b", 1, 5, 10, 0⟩ : Timeline.Item).endTime ≤
      (⟨"a", 1, 0, 5, 0⟩ : Timeline.Item).startTime) :=
  C1_rowPacker_no_overlap_within_row
    [⟨"a", 1, 0, 5, 0⟩, ⟨"b", 1, 5, 10, 0⟩]
    [⟨"a", 1, 0, 5, 0⟩, ⟨"b", 1, 5, 10, 0⟩] 1
    (by with_unfolding_all decide) (by with_unfolding_all decide)
    (by with_unfolding_all decide)
    0 1 ⟨"a", 1, 0, 5, 0⟩ ⟨"b", 1, 5, 10, 0⟩
    (by with_unfolding_all decide) (by with_unfolding_all decide)
    (by decide) (by decide)

/-- C1 counterexample: with a duplicated push id, `data.find` writes the row
of the wrong interval, leaving `("a", [0,100))` and `("p", [10,20))` both in
row 0 although they overlap — the claim fails without the distinct-id
hypothesis. -/
theorem C1_cex :
    Timeline.divideIntoRows
      [⟨"a", 1, 0, 100, 0⟩, ⟨"p", 1, 1, 5, 0⟩, ⟨"p", 1, 10, 20, 0⟩] =
      some ([⟨"a", 1, 0, 100, 0⟩, ⟨"p", 1, 1, 5, 1⟩, ⟨"p", 1, 10, 20, 0⟩], 2) ∧
    (∀ it ∈ ([⟨"a", 1, 0, 100, 0⟩, ⟨"p", 1, 1, 5, 0⟩, ⟨"p", 1, 10, 20, 0⟩] :
      List Timeline.Item), it.startTime ≤ it.endTime) ∧
    (⟨"a", 1, 0, 100, 0⟩ : Timeline.Item).row =
      (⟨"p", 1, 10, 20, 0⟩ : Timeline.Item).row ∧
    ¬ ((⟨"a", 1, 0, 100, 0⟩ : Timeline.Item).endTime ≤
        (⟨"p", 1, 10, 20, 0⟩ : Timeline.Item).startTime ∨
      (⟨"p", 1, 10, 20, 0⟩ : Timeline.Item).endTime ≤
        (⟨"a", 1, 0, 100, 0⟩ : Timeline.Item).startTime) := by
  refine ⟨?_, ?_, ?_, ?_⟩ <;> with_unfolding_all decide

/-- C8 (amended): with pairwise-distinct push ids, every terminating run
writes each interval's row field exactly once (the write log is a permutation
of all indices), and the output contains every input interval exactly once
with a row `≥ 0` and all other fields unchanged. -/
theorem C8_rowPacker_totality_single_write
    (data : List Timeline.Item) (rows ws : List Nat) (k : Nat)
    (hids : (data.map (·.pushID)).Nodup)
    (hse : ∀ it ∈ data, it.startTime ≤ it.endTime)
    (hrun : Timeline.divideIntoRowsRun data = some (rows, ws, k)) :
    (∀ i, i < data.length → ws.count i = 1) ∧
    (∃ out, Timeline.divideIntoRows data = some (out, k) ∧
      out.length = data.length ∧
      (out.map Timeline.eraseRow).Perm (data.map Timeline.eraseRow) ∧
      (∀ it ∈ out, 0 ≤ it.row)) := by
  have hrun0 := hrun
  simp only [Timeline.divideIntoRowsRun] at hrun0
  have hID := Timeline.sortByStart_goodIds data hids
  have hsei : ∀ m, m < (Timeline.sortByStart data).length →
      Timeline.startOf (Timeline.sortByStart data) m ≤
        Timeline.endOf (Timeline.sortByStart data) m := by
    intro m hm
    exact hse _ ((Timeline.sortByStart_perm data).subset
      (Timeline.getD_mem (Timeline.sortByStart data) m hm))
  have hmain := Timeline.packLoop_main (Timeline.sortByStart data) hID hsei
    ((Timeline.sortByStart data).length + 1)
    (List.range (Timeline.sortByStart data).length)
    ((Timeline.sortByStart data).map (·.row)) [] 0 rows ws k hrun0
    (by simp) (by simp) (by simp) (by simp)
  obtain ⟨hwsperm, _, _⟩ := hmain
  have hlen : (Timeline.sortByStart data).length = data.length :=
    (Timeline.sortByStart_perm data).length_eq
  constructor
  · intro i hi
    have himem : i ∈ ws := hwsperm.mem_iff.mpr (List.mem_range.mpr (by omega))
    exact List.count_eq_one_of_mem (hwsperm.nodup_iff.mpr (List.nodup_range _)) himem
  · refine ⟨_, Timeline.divideIntoRows_of_run data rows ws k hrun, ?_, ?_, ?_⟩
    · simp [hlen]
    · have h1 : ((List.range (Timeline.sortByStart data).length).map
          (fun i => { (Timeline.sortByStart data).getD i default
            with row := rows.getD i 0 })).map Timeline.eraseRow
          = ((List.range (Timeline.sortByStart data).length).map
            (fun i => (Timeline.sortByStart data).getD i default)).map
              Timeline.eraseRow := by
        rw [List.map_map, List.map_map]
        exact List.map_congr_left (fun i _ => rfl)
      rw [h1, Timeline.map_range_getD_item]
      exact (Timeline.sortByStart_perm data).map Timeline.eraseRow
    · intro it _
      exact Nat.zero_le _

/-- C8 witness: on two disjoint distinct-id intervals the write log is
`[0, 1]` and index 0 is written exactly once. -/
theorem C8_witness : ([0, 1] : List Nat).count 0 = 1 :=
  (C8_rowPacker_totality_single_write
    [⟨"a", 1, 0, 5, 0⟩, ⟨"b", 1, 5, 10, 0⟩] [0, 0] [0, 1] 1
    (by with_unfolding_all decide) (by with_unfolding_all decide)
    (by with_unfolding_all decide)).1 0 (by decide)

/-- C8 counterexample: with a duplicated push id, the row of the second
interval is never written (`data.find` hits the first match twice), so the
write log is `[0, 0]` and index 1 is written zero times, not exactly once. -/
theorem C8_cex :
    Timeline.divideIntoRowsRun [⟨"p", 1, 0, 5, 0⟩, ⟨"p", 1, 10, 20, 0⟩] =
      some ([0, 0], [0, 0], 1) ∧
    ([0, 0] : List Nat).count 1 = 0 ∧ (0 : Nat) ≠ 1 := by
  refine ⟨?_, ?_, ?_⟩ <;> with_unfolding_all decide

/-- C10: `divideIntoRows` on the empty interval array still executes one
packing pass and returns row count 1 (not 0); the timeline `populateData` on
a push def with no displayable pushes therefore reports one row; and every
terminating run returns a row count `≥ 1`. -/
theorem C10_empty_input_row_count_one :
    Timeline.divideIntoRows [] = some ([], 1) ∧
    Timeline.populateData (some []) = some ([], 1) ∧
    (∀ (data out : List Timeline.Item) (k : Nat),
      Timeline.divideIntoRows data = some (out, k) → 1 ≤ k) := by
  refine ⟨by with_unfolding_all decide, by with_unfolding_all decide, ?_⟩
  intro data out k h
  obtain ⟨rows, ws, hrun, _⟩ := Timeline.divideIntoRows_some data out k h
  simp only [Timeline.divideIntoRowsRun] at hrun
  have := Timeline.packLoop_rowIndex_lt (Timeline.sortByStart data) _ _ _ _ _ _ _ _ hrun
  omega

/-- C10 witness: the row-count lower bound applied to the empty run itself. -/
theorem C10_witness : 1 ≤ 1 :=
  C10_empty_input_row_count_one.2.2 [] [] 1 C10_empty_input_row_count_one.1

/-- C2 (amended): for every non-empty list of intervals with non-negative
start times and strictly positive durations (`startTime < endTime`),
`divideIntoRows` terminates and its row count equals the maximum number of
intervals that simultaneously overlap at a single point in time (closed-open
containment).  The degenerate zero-length intervals the original claim
admitted are excluded — see the counterexample. -/
theorem C2_row_count_equals_max_overlap
    (data : List Timeline.Item)
    (hne : data ≠ [])
    (hpos : ∀ it ∈ data, 0 ≤ it.startTime)
    (hlen : ∀ it ∈ data, it.startTime < it.endTime) :
    ∃ out k, Timeline.divideIntoRows data = some (out, k) ∧
      (∃ t : ℚ, Timeline.depthAt data t = k) ∧
      (∀ t : ℚ, Timeline.depthAt data t ≤ k) := by
  have hperm := Timeline.sortByStart_perm data
  have hn : 0 < (Timeline.sortByStart data).length := by
    rw [hperm.length_eq]
    exact List.length_pos.mpr hne
  have hposi : ∀ i ∈ List.range (Timeline.sortByStart data).length,
      0 ≤ Timeline.startOf (Timeline.sortByStart data) i := by
    intro i hi
    exact hpos _ (hperm.subset
      (Timeline.getD_mem (Timeline.sortByStart data) i (List.mem_range.mp hi)))
  have hleni : ∀ i ∈ List.range (Timeline.sortByStart data).length,
      Timeline.startOf (Timeline.sortByStart data) i <
        Timeline.endOf (Timeline.sortByStart data) i := by
    intro i hi
    exact hlen _ (hperm.subset
      (Timeline.getD_mem (Timeline.sortByStart data) i (List.mem_range.mp hi)))
  have hsome := Timeline.packLoop_isSome (Timeline.sortByStart data)
    ((Timeline.sortByStart data).length + 1)
    (List.range (Timeline.sortByStart data).length)
    ((Timeline.sortByStart data).map (·.row)) [] 0 hposi (by simp)
  obtain ⟨⟨rows, ws, k⟩, hrun⟩ := Option.isSome_iff_exists.mp hsome
  have hrun' : Timeline.divideIntoRowsRun data = some (rows, ws, k) := by
    simp only [Timeline.divideIntoRowsRun]
    exact hrun
  have htrans : ∀ t : ℚ, Timeline.depthAt data t =
      (List.range (Timeline.sortByStart data).length).countP
        (fun i => decide (Timeline.startOf (Timeline.sortByStart data) i ≤ t ∧
          t < Timeline.endOf (Timeline.sortByStart data) i)) := by
    intro t
    unfold Timeline.depthAt
    rw [← hperm.countP_eq, ← Timeline.countP_range_getD_item]
    rfl
  have hlb := Timeline.packLoop_depth_le (Timeline.sortByStart data)
    ((Timeline.sortByStart data).length + 1)
    (List.range (Timeline.sortByStart data).length)
    ((Timeline.sortByStart data).map (·.row)) [] 0 rows ws k hrun
    (fun i hi => le_of_lt (hleni i hi))
  refine ⟨_, k, Timeline.divideIntoRows_of_run data rows ws k hrun', ?_, ?_⟩
  · have hub := Timeline.packLoop_depth_witness (Timeline.sortByStart data)
      ((Timeline.sortByStart data).length + 1)
      (List.range (Timeline.sortByStart data).length)
      ((Timeline.sortByStart data).map (·.row)) [] 0 rows ws k hrun
      (by simp only [Ne, List.range_eq_nil]; omega) hposi hleni
      (Timeline.range_pairwise_byStart data)
    rcases hub with ⟨i, hi, hcnt⟩
    refine ⟨Timeline.startOf (Timeline.sortByStart data) i, ?_⟩
    have hle := hlb (Timeline.startOf (Timeline.sortByStart data) i)
    rw [htrans]
    omega
  · intro t
    rw [htrans t]
    have := hlb t
    omega

/-- C2 witness: two overlapping intervals receive two rows and their maximum
simultaneous overlap is two. -/
theorem C2_witness :
    ∃ out k, Timeline.divideIntoRows
      [⟨"a", 1, 0, 10, 0⟩, ⟨"b", 1, 5, 15, 0⟩] = some (out, k) ∧
      (∃ t : ℚ, Timeline.depthAt [⟨"a", 1, 0, 10, 0⟩, ⟨"b", 1, 5, 15, 0⟩] t = k) ∧
      (∀ t : ℚ, Timeline.depthAt [⟨"a", 1, 0, 10, 0⟩, ⟨"b", 1, 5, 15, 0⟩] t ≤ k) :=
  C2_row_count_equals_max_overlap [⟨"a", 1, 0, 10, 0⟩, ⟨"b", 1, 5, 15, 0⟩]
    (by with_unfolding_all decide) (by with_unfolding_all decide)
    (by with_unfolding_all decide)

/-- C2 counterexample: a single zero-length interval (`endTime = startTime`,
allowed by the claim's `endTime ≥ startTime`) gets row count 1, yet no point
in time is covered by any interval under closed-open semantics, so the
maximum simultaneous overlap is 0 ≠ 1. -/
theorem C2_cex :
    Timeline.divideIntoRows [⟨"p", 1, 5, 5, 0⟩] =
      some ([⟨"p", 1, 5, 5, 0⟩], 1) ∧
    (∀ t : ℚ, Timeline.depthAt [⟨"p", 1, 5, 5, 0⟩] t = 0) ∧
    (0 : Nat) ≠ 1 := by
  refine ⟨by with_unfolding_all decide, ?_, by decide⟩
  intro t
  have h5 : ¬ ((5 : ℚ) ≤ t ∧ t < 5) := by
    rintro ⟨h1, h2⟩
    exact absurd (lt_of_le_of_lt h1 h2) (lt_irrefl 5)
  simp [Timeline.depthAt, List.countP_cons, h5]

/-- The collision scan bumps a candidate exactly one radius (plus the `1e-6`
epsilon) past each already stacked dot at the same nonzero pixel position. -/
lemma dodge_scan_stack (sqrtFn : ℚ → ℚ) (r x : ℚ) (hr : 0 < r) (hx : ¬ x = 0)
    (hs : sqrtFn (r ^ 2) = r) :
    ∀ m : Nat, ((List.range m).map
        (fun k : Nat => (x, (k : ℚ) * (r + 1/1000000)))).foldl
      (Cdf.dodgeStep sqrtFn (r ^ 2) x) 0 = (m : ℚ) * (r + 1/1000000) := by
  intro m
  induction m with
  | zero => simp
  | succ m ih =>
    rw [List.range_succ, List.map_append, List.foldl_append, ih]
    simp only [List.map_cons, List.map_nil, List.foldl_cons, List.foldl_nil]
    have hzero : ((0 : ℚ)) ^ 2 = 0 := by norm_num
    unfold Cdf.dodgeStep
    rw [if_neg hx]
    simp only [sub_self, hzero, add_zero, sub_zero]
    rw [if_pos (by positivity), hs]
    push_cast
    ring

/-- C5 (amended): the collision scan of `generateYPosition` only enforces a
separation of one radius, not one diameter: when all durations map to the
same nonzero pixel position, the dots stack at consecutive vertical offsets
`k * (radius + 1e-6)` — adjacent dots end up at distance `radius + 1e-6`,
which for any radius above `2e-6` is strictly less than the claimed
`2 * radius - epsilon`. -/
theorem C5_dot_stacking_radius_gap (r x : ℚ) (n : Nat) (sqrtFn : ℚ → ℚ)
    (hr : 0 < r) (hx : ¬ x = 0) (hs : sqrtFn (r ^ 2) = r) :
    Cdf.generateYPosition sqrtFn r (fun t => t) (List.replicate n x) =
      (List.range n).map (fun k : Nat => (k : ℚ) * (r + 1/1000000)) := by
  have houter : ∀ m : Nat, (List.replicate m x).foldl
      (Cdf.placeDot sqrtFn (r ^ 2) (fun t => t)) [] =
      (List.range m).map (fun k : Nat => (x, (k : ℚ) * (r + 1/1000000))) := by
    intro m
    induction m with
    | zero => simp
    | succ m ih =>
      rw [List.replicate_succ', List.foldl_append, ih]
      simp only [List.foldl_cons, List.foldl_nil]
      unfold Cdf.placeDot
      simp only
      rw [dodge_scan_stack sqrtFn r x hr hx hs m]
      rw [List.range_succ, List.map_append]
      simp only [List.map_cons, List.map_nil]
  unfold Cdf.generateYPosition
  rw [houter n, List.map_map]
  rfl

/-- C5 witness: three dots of radius 10 at pixel position 1 stack at heights
0, 10.000001 and 20.000002. -/
theorem C5_witness :
    Cdf.generateYPosition Rat.sqrt 10 (fun t => t) (List.replicate 3 1) =
      (List.range 3).map (fun k : Nat => (k : ℚ) * (10 + 1/1000000)) :=
  C5_dot_stacking_radius_gap 10 1 3 Rat.sqrt (by norm_num) (by norm_num)
    (by rw [show ((10 : ℚ) ^ 2) = 10 * 10 by norm_num, Rat.sqrt_eq]; norm_num)

/-- C5 counterexample: two dots of radius 10 at the same position end up at
squared distance `(10 + 1e-6)²`, far below the `(2·10 - 1e-6)²` the claimed
`2*radius - epsilon` separation would require. -/
theorem C5_cex :
    Cdf.generateYPosition Rat.sqrt 10 (fun t => t) [1, 1] = [0, 10 + 1/1000000] ∧
    ((1 : ℚ) - 1) ^ 2 + ((10 + 1/1000000 : ℚ) - 0) ^ 2 <
      (2 * 10 - 1/1000000) ^ 2 := by
  constructor
  · have h2 : List.replicate 2 (1 : ℚ) = [1, 1] := by rfl
    have h := C5_dot_stacking_radius_gap 10 1 2 Rat.sqrt (by norm_num) (by norm_num)
      (by rw [show ((10 : ℚ) ^ 2) = 10 * 10 by norm_num, Rat.sqrt_eq]; norm_num)
    rw [h2] at h
    rw [h]
    norm_num [List.range_succ]
  · norm_num

/-- C6 (amended): for every table whose probability column is strictly
increasing, brackets the queried range (smallest probability below 0.01,
largest above 0.99) — without the bracketing the very first lookup throws,
see the counterexample — and every pixel scale, `generateQuantiles` on
`[0.1, 0.5, 0.9]` terminates within 10 widening steps (each moving the low
bound down and the high bound up by 0.01) and returns either exactly 3
markers or exactly 1 marker (the mid/median), the latter precisely when
every widening step fails the 15-pixel spacing test, i.e. when the widening
drives the low bound below 0.01 and the high bound above 0.99. -/
theorem C6_quantile_termination_collapse (data : List Cdf.Item) (xScale : ℚ → ℚ)
    (hs : (data.map (·.probability)).Sorted (· < ·))
    (hlow : ∃ a, data.head? = some a ∧ a.probability < 1/100)
    (hhigh : ∃ b, data.getLast? = some b ∧ 99/100 < b.probability) :
    ∃ l, Cdf.generateQuantiles 11 data (1/10, 1/2, 9/10) xScale = some l ∧
      (l.length = 3 ∨ l.length = 1) ∧
      (l.length = 1 ↔ ∀ m : Nat, m < 10 → Cdf.spacingFailAt data xScale m) := by
  have hsome : ∀ p : ℚ, 1/100 ≤ p → p ≤ 99/100 →
      (Cdf.getDurationforProbability data p).isSome := by
    intro p hp1 hp2
    obtain ⟨a, ha, hap⟩ := hlow
    obtain ⟨b, hb, hbp⟩ := hhigh
    exact Cdf.getDurationforProbability_isSome data p hs
      ⟨a, ha, lt_of_lt_of_le hap hp1⟩ ⟨b, hb, lt_of_le_of_lt hp2 hbp⟩
  have h := Cdf.generateQuantiles_spec data xScale hsome 10 le_rfl
  have e0 : 1/10 - ((10 - 10 : Nat) : ℚ)/100 = 1/10 := by norm_num
  have e2 : 9/10 + ((10 - 10 : Nat) : ℚ)/100 = 9/10 := by norm_num
  rw [e0, e2] at h
  obtain ⟨l, hl, hlen, hiff⟩ := h
  refine ⟨l, hl, hlen, ?_⟩
  rw [hiff]
  constructor
  · intro h m hm
    exact h m (by omega) hm
  · intro h m _ hm
    exact h m hm

/-- C6 witness: a three-entry table with probabilities 0.005, 0.5, 1 brackets
the range; on the identity pixel scale the tightly clustered durations make
every spacing test fail and the call collapses to the single median marker. -/
theorem C6_witness :
    ∃ l, Cdf.generateQuantiles 11 [⟨1, 1/200⟩, ⟨2, 1/2⟩, ⟨3, 1⟩]
      (1/10, 1/2, 9/10) (fun t => t) = some l ∧
      (l.length = 3 ∨ l.length = 1) ∧
      (l.length = 1 ↔ ∀ m : Nat, m < 10 →
        Cdf.spacingFailAt [⟨1, 1/200⟩, ⟨2, 1/2⟩, ⟨3, 1⟩] (fun t => t) m) :=
  C6_quantile_termination_collapse [⟨1, 1/200⟩, ⟨2, 1/2⟩, ⟨3, 1⟩] (fun t => t)
    (by with_unfolding_all decide)
    ⟨⟨1, 1/200⟩, by with_unfolding_all decide⟩
    ⟨⟨3, 1⟩, by with_unfolding_all decide⟩

/-- C6 counterexample: the worked-example table has a strictly increasing
probability column and the identity scale is linear, yet the very first call
already throws (its smallest probability 0.2 is not below the queried 0.1, so
the left-neighbour lookup reads `data[-1]`), returning no markers at all —
at any recursion budget. -/
theorem C6_cex :
    (Cdf.exampleTable.map (·.probability)).Sorted (· < ·) ∧
    (∃ c d : ℚ, ∀ t : ℚ, (fun t : ℚ => t) t = c * t + d) ∧
    Cdf.generateQuantiles 11 Cdf.exampleTable (1/10, 1/2, 9/10) (fun t : ℚ => t)
      = none ∧
    Cdf.generateQuantiles 1000 Cdf.exampleTable (1/10, 1/2, 9/10) (fun t : ℚ => t)
      = none := by
  refine ⟨?_, ⟨1, 0, fun t => by ring⟩, ?_, ?_⟩
  · with_unfolding_all decide
  · with_unfolding_all decide
  · with_unfolding_all decide

/-- C9: for every input array of push records, the table returned by
`populateData` is sorted ascending by duration, the `i`-th entry (0-based)
has probability `(i + 1) / n` at the fraction scale, and consequently the
probability column is monotonically non-decreasing along the table. -/
theorem C9_populateData_sorted_rank_table
    (pushInfos : List PushInfo) (table : List Cdf.Item)
    (h : Cdf.populateData pushInfos = some table) :
    (table.map (·.duration)).Sorted (· ≤ ·) ∧
    (∀ (i : Nat) (a : Cdf.Item), table[i]? = some a →
      a.probability = ((i : ℚ) + 1) / (table.length : ℚ)) ∧
    (∀ (i j : Nat) (a b : Cdf.Item), i ≤ j → table[i]? = some a →
      table[j]? = some b → a.probability ≤ b.probability) := by
  rcases Cdf.populateData_some _ _ h with ⟨s, hsort, rfl⟩
  have hprob : ∀ (i : Nat) (a : Cdf.Item), (Cdf.buildTable s)[i]? = some a →
      a.probability = ((i : ℚ) + 1) / ((Cdf.buildTable s).length : ℚ) := by
    intro i a ha
    rcases List.getElem?_eq_some.mp ha with ⟨hlt, rfl⟩
    rw [Cdf.buildTable_getElem s i hlt, Cdf.buildTable_length]
  refine ⟨by rw [Cdf.buildTable_map_duration]; exact hsort, hprob, ?_⟩
  intro i j a b hij ha hb
  rw [hprob i a ha, hprob j b hb]
  have hjlt : j < (Cdf.buildTable s).length := (List.getElem?_eq_some.mp hb).1
  have hn : (0 : ℚ) ≤ ((Cdf.buildTable s).length : ℚ) := by positivity
  have hnum : (i : ℚ) + 1 ≤ (j : ℚ) + 1 := by
    have : (i : ℚ) ≤ (j : ℚ) := by exact_mod_cast hij
    linarith
  exact div_le_div_of_nonneg_right hnum hn

/-- C9 witness: the worked five-push example satisfies the three table
invariants. -/
theorem C9_witness :
    (Cdf.exampleTable.map (·.duration)).Sorted (· ≤ ·) ∧
    ((⟨1, 1/5⟩ : Cdf.Item).probability =
      ((0 : ℚ) + 1) / (Cdf.exampleTable.length : ℚ)) := by
  have h := C9_populateData_sorted_rank_table Cdf.examplePushes Cdf.exampleTable
    (by with_unfolding_all decide)
  exact ⟨h.1, h.2.1 0 ⟨1, 1/5⟩ (by with_unfolding_all decide)⟩

/-- C3 (amended): the empirical-CDF lookup does not round-trip at a sample.
For a duplicate-free `populateData` table the lookup at the duration of the
`(i+1)`-th entry returns the probability of the `i`-th entry (the greatest
entry whose duration is strictly less than the query), and at the first
entry's duration it makes an out-of-range access. -/
theorem C3_lookup_at_sample_shifted
    (pushInfos : List PushInfo) (table : List Cdf.Item)
    (h : Cdf.populateData pushInfos = some table)
    (hnd : (table.map (·.duration)).Nodup) :
    (∀ a, table.head? = some a →
      Cdf.getProbabilityForDuration table a.duration = none) ∧
    (∀ (i : Nat) (a b : Cdf.Item), table[i]? = some a → table[i+1]? = some b →
      Cdf.getProbabilityForDuration table b.duration = some a.probability) := by
  rcases Cdf.populateData_some _ _ h with ⟨s, hsort, rfl⟩
  rw [Cdf.buildTable_map_duration] at hnd
  constructor
  · intro a ha
    rw [List.head?_eq_getElem?] at ha
    rcases List.getElem?_eq_some.mp ha with ⟨h0, rfl⟩
    have hlen0 : 0 < s.length := by rwa [Cdf.buildTable_length] at h0
    rw [Cdf.buildTable_getElem s 0 h0]
    have hentry := Cdf.getProb_at_entry s hsort hnd 0 hlen0
    rw [if_pos rfl] at hentry
    exact hentry
  · intro i a b ha hb
    rcases List.getElem?_eq_some.mp ha with ⟨hia, rfl⟩
    rcases List.getElem?_eq_some.mp hb with ⟨hib, rfl⟩
    have hib' : i + 1 < s.length := by rwa [Cdf.buildTable_length] at hib
    rw [Cdf.buildTable_getElem s (i+1) hib, Cdf.buildTable_getElem s i hia]
    have hentry := Cdf.getProb_at_entry s hsort hnd (i+1) hib'
    rw [if_neg (by omega)] at hentry
    rw [hentry]
    congr 1
    push_cast
    ring

/-- C3 counterexample: in the worked example the (duplicate-free) table has
the sample `(3, 3/5)` but the lookup at duration `3` returns `2/5`, not the
sample's own probability `3/5`. -/
theorem C3_cex :
    Cdf.populateData Cdf.examplePushes = some Cdf.exampleTable ∧
    (Cdf.exampleTable.map (·.duration)).Nodup ∧
    Cdf.exampleTable[2]? = some ⟨3, 3/5⟩ ∧
    Cdf.getProbabilityForDuration Cdf.exampleTable 3 = some (2/5) ∧
    (2/5 : ℚ) ≠ 3/5 := by
  refine ⟨?_, ?_, ?_, ?_, ?_⟩ <;> with_unfolding_all decide

/-- C3 witness: in the worked example the lookup at the duration of the
sample `(4, 4/5)` returns the previous sample's probability `3/5`. -/
theorem C3_witness :
    Cdf.getProbabilityForDuration Cdf.exampleTable (4 : ℚ) = some (3/5) := by
  have h := (C3_lookup_at_sample_shifted Cdf.examplePushes Cdf.exampleTable
    (by with_unfolding_all decide) (by with_unfolding_all decide)).2
    2 ⟨3, 3/5⟩ ⟨4, 4/5⟩ (by with_unfolding_all decide) (by with_unfolding_all decide)
  exact h

/-- C7 (amended): for a duration-sorted table, `getProbabilityForDuration`
makes an out-of-range access (`none`) exactly when no entry's duration is
strictly below the query — i.e. the table is empty or the query is less than
OR EQUAL TO the minimum duration; for every other query it returns the
probability of some table entry. -/
theorem C7_lookup_out_of_range_iff (table : List Cdf.Item) (x : ℚ)
    (hs : (table.map (·.duration)).Sorted (· ≤ ·)) :
    (Cdf.getProbabilityForDuration table x = none ↔ ∀ it ∈ table, x ≤ it.duration) ∧
    (∀ p, Cdf.getProbabilityForDuration table x = some p →
      ∃ it ∈ table, it.probability = p) :=
  ⟨Cdf.getProbabilityForDuration_none_iff table x hs,
   fun p hp => Cdf.getProbabilityForDuration_some_mem table x p hp⟩

/-- C7 counterexample: on the sorted table `[(1, 1/2), (2, 1)]` the query `1`
equals the minimum duration — so by the claim it should be in range — yet the
lookup makes the out-of-range access. -/
theorem C7_cex :
    Cdf.getProbabilityForDuration [⟨1, 1/2⟩, ⟨2, 1⟩] 1 = none ∧
    ([⟨1, 1/2⟩, ⟨2, 1⟩] : List Cdf.Item) ≠ [] ∧
    ¬ ((1 : ℚ) < 1) := by
  refine ⟨?_, ?_, ?_⟩
  · with_unfolding_all decide
  · with_unfolding_all decide
  · norm_num

/-- C7 witness: the characterization applied to the table `[(1,1/2),(2,1)]`
and the in-range query `3/2`. -/
theorem C7_witness :
    (Cdf.getProbabilityForDuration [⟨1, 1/2⟩, ⟨2, 1⟩] (3/2) = none ↔
      ∀ it ∈ ([⟨1, 1/2⟩, ⟨2, 1⟩] : List Cdf.Item), 3/2 ≤ it.duration) ∧
    (∀ p, Cdf.getProbabilityForDuration [⟨1, 1/2⟩, ⟨2, 1⟩] (3/2) = some p →
      ∃ it ∈ ([⟨1, 1/2⟩, ⟨2, 1⟩] : List Cdf.Item), it.probability = p) :=
  C7_lookup_out_of_range_iff [⟨1, 1/2⟩, ⟨2, 1⟩] (3/2) (by with_unfolding_all decide)

/-- C4 (amended): on the worked-example table, `getDurationforProbability` at
probability `1/2` (the 50th percentile) interpolates between the entries
`(2, 40%)` and `(3, 60%)` — the entries directly below and above — and
returns `5/2 = 2.5` (exact rational arithmetic). -/
theorem C4_durationForProbability_example :
    Cdf.populateData Cdf.examplePushes = some Cdf.exampleTable ∧
    Cdf.exampleTable[1]? = some ⟨2, 2/5⟩ ∧
    Cdf.exampleTable[2]? = some ⟨3, 3/5⟩ ∧
    Cdf.getDurationforProbability Cdf.exampleTable (1/2) = some (5/2) := by
  refine ⟨?_, ?_, ?_, ?_⟩ <;> with_unfolding_all decide

/-- C4 counterexample: the interpolated duration at probability `1/2` is
`5/2`, not the `7/2` the claim states. -/
theorem C4_cex :
    Cdf.getDurationforProbability Cdf.exampleTable (1/2) = some (5/2) ∧
    some (5/2 : ℚ) ≠ some (7/2 : ℚ) := by
  refine ⟨?_, ?_⟩ <;> with_unfolding_all decide

